import Mathlib

/-!
Verification of the metric-computation engine of `Face Verification/evaluation.py`:
rank transformation (`get_ranks`), ROC-curve construction (`roc_curve` from
scikit-learn, as called by the source), linear interpolation of curve points
(`perform_interpolation`), segmented weighted AUC (`compute_Weighted_AUC`),
TPR-at-fixed-FPR (`compute_tpr_with_fpr`) and threshold-swept Matthews
correlation (`compute_MCC`).

Modelling conventions:
* numpy float arrays are modelled as `List ℚ` (exact arithmetic in place of
  IEEE doubles); machine iteration order is preserved.
* numpy's stable `argsort` (kind='mergesort') is modelled as an insertion sort
  of the index list ordered lexicographically by (value, index); a stable sort
  by a total order on (value, index) pairs is unique, so the algorithm choice
  does not matter.
* operations that raise Python exceptions (`np.max` of an empty array,
  out-of-range indexing, `auc` on fewer than two points) are modelled with
  `Option`, `none` being the raised exception.
* for the degenerate single-class analysis a second model over `FVal :=
  Option ℚ` is used, `none` playing IEEE NaN, mirroring scikit-learn's
  behaviour of returning all-NaN rate arrays when a class is empty.
-/

-- Reducibility override needed so that `decide` can evaluate `Rat`
-- arithmetic, whose definitions are marked irreducible for elaboration
-- (the kernel itself ignores reducibility, so soundness is unaffected).
set_option allowUnsafeReducibility true
set_option maxRecDepth 2000

attribute [local semireducible] Rat.add Rat.sub Rat.mul Rat.div Rat.inv Rat.blt

/-- Order used by `argsort a`: index `i` comes before index `j` when the value
at `i` is smaller, ties broken by index (stability of numpy's mergesort
argsort). `d` is a dummy default for out-of-range `getD` lookups (all indices
used are in range). -/
def argsortRel {α : Type} [LinearOrder α] (a : List α) (d : α) (i j : ℕ) : Prop :=
  a.getD i d < a.getD j d ∨ (a.getD i d = a.getD j d ∧ i ≤ j)

instance {α : Type} [LinearOrder α] (a : List α) (d : α) :
    DecidableRel (argsortRel a d) := fun i j => by
  unfold argsortRel; infer_instance

/-- Model of `numpy.ndarray.argsort`: the list of indices of `a` sorted by
value (stably). -/
def argsort {α : Type} [LinearOrder α] [Inhabited α] (a : List α) : List ℕ :=
  List.insertionSort (argsortRel a default) (List.range a.length)

/-- Model of `get_ranks` (evaluation.py lines 12-23): double argsort. -/
def get_ranks (input_array : List ℚ) : List ℕ :=
  argsort (argsort input_array)

/-- Model of `np.argwhere(y_array < threshold)` as a list of indices (numpy
returns them in increasing order). -/
def argwhereLt (y : List ℚ) (t : ℚ) : List ℕ :=
  (List.range y.length).filter (fun i => decide (y.getD i 0 < t))

/-- Model of `np.argwhere(arr == value)` as a list of indices in increasing
order. -/
def argwhereEq (y : List ℚ) (t : ℚ) : List ℕ :=
  (List.range y.length).filter (fun i => decide (y.getD i 0 = t))

/-- One pass of the loop body of `perform_interpolation` (evaluation.py lines
70-85) for a single threshold: skip if the threshold is already present in
`y`, otherwise find `previous_index` as `np.max(np.argwhere(y_array <
threshold))`, linearly interpolate the paired x value, and `np.insert` both
arrays at `previous_index + 1`.  `none` models a raised Python exception
(`np.max` of an empty `argwhere` result, or an out-of-range index). -/
def interpolateOne (x y : List ℚ) (t : ℚ) : Option (List ℚ × List ℚ) :=
  if 0 < y.count t then some (x, y)
  else
    match (argwhereLt y t).max? with
    | none => none
    | some p =>
      -- `p` is a valid index of `y` by construction, so the four element
      -- accesses of the source are in range iff `p + 1` is in range of both
      -- arrays; otherwise numpy raises an `IndexError`, modelled by `none`.
      if p + 1 < x.length ∧ p + 1 < y.length then
        some (x.insertIdx (p + 1)
                ((t - y.getD p 0) * (x.getD (p + 1) 0 - x.getD p 0) /
                  (y.getD (p + 1) 0 - y.getD p 0) + x.getD p 0),
              y.insertIdx (p + 1) t)
      else none

/-- Model of `perform_interpolation` (evaluation.py lines 57-87): fold of
`interpolateOne` over the threshold array, in order. -/
def perform_interpolation (x y : List ℚ) (ts : List ℚ) : Option (List ℚ × List ℚ) :=
  match ts with
  | [] => some (x, y)
  | t :: ts =>
    match interpolateOne x y t with
    | none => none
    | some p => perform_interpolation p.1 p.2 ts

/-- Descending order on (score, label) pairs used by the ROC construction
(scores sorted descending; the resulting cumulative counts at distinct
thresholds do not depend on the order within a tie group). -/
def descPairRel (p q : ℚ × ℚ) : Prop := q.1 ≤ p.1

instance : DecidableRel descPairRel := fun p q => by
  unfold descPairRel; infer_instance

/-- Cumulative (false positives, true positives) pairs of
`sklearn.metrics._binary_clf_curve`: walk the (score, label) list (already
sorted by descending score) accumulating counts, emitting one point per
distinct score value (at the last element of each tie run). -/
def cumPoints : List (ℚ × ℚ) → ℕ → ℕ → List (ℕ × ℕ)
  | [], _, _ => []
  | (s, l) :: rest, fp, tp =>
    let fp2 := if l = 1 then fp else fp + 1
    let tp2 := if l = 1 then tp + 1 else tp
    match rest with
    | [] => [(fp2, tp2)]
    | (s2, _) :: _ =>
      if s2 = s then cumPoints rest fp2 tp2
      else (fp2, tp2) :: cumPoints rest fp2 tp2

/-- Auxiliary recursion of `dropIntermediate`: keep `cur` unless both second
differences (w.r.t. the original neighbours `prev` and `next`) vanish; the
last point is always kept. -/
def dropCorners (prev cur : ℕ × ℕ) : List (ℕ × ℕ) → List (ℕ × ℕ)
  | [] => [cur]
  | next :: rest =>
    if cur.1 + cur.1 = prev.1 + next.1 ∧ cur.2 + cur.2 = prev.2 + next.2 then
      dropCorners cur next rest
    else cur :: dropCorners cur next rest

/-- Model of scikit-learn `roc_curve`'s `drop_intermediate=True` step: when
there are more than two points, keep the first and last points and every point
at which the second difference of the fps or tps sequence is nonzero. -/
def dropIntermediate (l : List (ℕ × ℕ)) : List (ℕ × ℕ) :=
  match l with
  | a :: b :: c :: rest => a :: dropCorners a b (c :: rest)
  | _ => l

/-- Model of `sklearn.metrics.roc_curve(y_true, y_score)` with its defaults
(pos_label 1, drop_intermediate True), as implemented in the scikit-learn
versions this code can run against (0.17-0.21, the ones still offering
`auc(..., reorder=True)`): cumulative counts at distinct descending
thresholds, intermediate collinear points dropped, and an extra (0, 0) point
prepended only when `tps.size == 0 or fps[0] != 0`, i.e. when the curve does
not already start at zero false positives; both coordinates are then
normalised by their final counts.  Degenerate class counts (`P = 0` or
`N = 0`) make the corresponding rates NaN in scikit-learn; this
exact-arithmetic model is only used under the assumption that both classes
are present, and `roc_curveF` below models the NaN behaviour. -/
def roc_curve (y_true y_score : List ℚ) : List ℚ × List ℚ :=
  let pts0 := dropIntermediate
    (cumPoints (List.insertionSort descPairRel (y_score.zip y_true)) 0 0)
  let pts := if pts0 = [] ∨ (pts0.headD (0, 0)).1 ≠ 0 then (0, 0) :: pts0 else pts0
  let nn : ℚ := ((pts.getLastD (0, 0)).1 : ℚ)
  let pp : ℚ := ((pts.getLastD (0, 0)).2 : ℚ)
  (pts.map (fun p => (p.1 : ℚ) / nn), pts.map (fun p => (p.2 : ℚ) / pp))

/-- Lexicographic order on (x, y) points, the order produced by
`np.lexsort((y, x))` in `sklearn.metrics.auc(x, y, reorder=True)`. -/
def lexPairRel (p q : ℚ × ℚ) : Prop := p.1 < q.1 ∨ (p.1 = q.1 ∧ p.2 ≤ q.2)

instance : DecidableRel lexPairRel := fun p q => by
  unfold lexPairRel; infer_instance

/-- Model of `np.trapz(y, x)` on a list of (x, y) points: the signed
trapezoidal sum. -/
def trapz : List (ℚ × ℚ) → ℚ
  | [] => 0
  | [_] => 0
  | p :: q :: rest => (q.1 - p.1) * (p.2 + q.2) / 2 + trapz (q :: rest)

/-- Model of `sklearn.metrics.auc(x, y, reorder=True)`: sort the points
lexicographically and integrate by the trapezoidal rule.  (The guard that
scikit-learn's `auc` raises on fewer than two points is immaterial here: every
call site in the source passes at least two points, which is proved where
needed.) -/
def auc (x y : List ℚ) : ℚ :=
  trapz (List.insertionSort lexPairRel (x.zip y))

/-- Model of `np.linspace a b num` (endpoint=True), exact arithmetic. -/
def linspace (a b : ℚ) (num : ℕ) : List ℚ :=
  if num ≤ 1 then List.replicate num a
  else (List.range num).map (fun (k : ℕ) => a + (k : ℚ) * (b - a) / ((num : ℚ) - 1))

/-- Model of `np.mean`. -/
def npMean (l : List ℚ) : ℚ := l.sum / (l.length : ℚ)

/-- The per-band area loop of `compute_Weighted_AUC` (evaluation.py lines
121-152), recursing over the list of upper band boundaries and carrying
`lowest_record_index`.  For each boundary `b`: `highest_record_index` is
`np.sum(tpr <= b) - 1`; the records `low..high` are selected, the TPR is
re-based by its first selected value, the curve is extended by points at FPR 0
and 1, and `auc(..., reorder=True)` is taken.  `none` models the `IndexError`
numpy raises when the selected slice is empty. -/
def bandAreas (fpr tpr : List ℚ) : List ℚ → ℕ → Option (List ℚ)
  | [], _ => some []
  | b :: bs, low =>
    let cnt := tpr.countP (fun v => decide (v ≤ b))
    if cnt = 0 then none
    else
      let high := cnt - 1
      let sfpr := (fpr.drop low).take (high + 1 - low)
      let stpr := (tpr.drop low).take (high + 1 - low)
      match stpr with
      | [] => none
      | t0 :: _ =>
        let rtpr := stpr.map (fun v => v - t0)
        let ex := 0 :: sfpr ++ [1]
        let ey := rtpr.getD 0 0 :: rtpr ++ [rtpr.getLastD 0]
        match bandAreas fpr tpr bs high with
        | none => none
        | some rest => some (auc ex ey :: rest)

/-- Model of `compute_Weighted_AUC` (evaluation.py lines 89-157): build the
ROC curve, interpolate the interior band boundaries into the TPR axis, sum the
per-band areas weighted by the mean-normalised weight distribution.  `none`
models a raised exception in the numpy code. -/
def compute_Weighted_AUC (y_true y_score : List ℚ) (weight_distribution : List ℚ) :
    Option ℚ :=
  let wnum := weight_distribution.length
  let bounds := linspace 0 1 (wnum + 1)
  let r := roc_curve y_true y_score
  match perform_interpolation r.1 r.2 ((bounds.drop 1).dropLast) with
  | none => none
  | some fi =>
    match bandAreas fi.1 fi.2 (bounds.drop 1) 0 with
    | none => none
    | some areas =>
      let wn := weight_distribution.map (fun w => w / npMean weight_distribution)
      some (List.sum (List.zipWith (fun a w => a * w) areas wn))

/-- Model of `compute_tpr_with_fpr` (evaluation.py lines 159-177): interpolate
the chosen FPR into the curve, with TPR as the x axis and FPR as the y axis,
then return the TPR at index `np.argwhere(fpr == chosen_fpr)[0][0]`, i.e. at
the first index whose FPR equals the chosen value. -/
def compute_tpr_with_fpr (y_true y_score : List ℚ) (chosen_fpr : ℚ) : Option ℚ :=
  let r := roc_curve y_true y_score
  match perform_interpolation r.2 r.1 [chosen_fpr] with
  | none => none
  | some ti =>
    match argwhereEq ti.2 chosen_fpr with
    | [] => none
    | i :: _ => ti.1[i]?

/-- Exact representation of a Matthews-correlation value `num / √radicand`
(scikit-learn computes it as a float; the exact representation keeps the model
executable). -/
structure MCCVal where
  num : ℤ
  radicand : ℕ
deriving DecidableEq, Repr

/-- Comparison of two represented values `u.num/√u.radicand ≤
v.num/√v.radicand` (for nonzero radicands), by sign analysis and squaring. -/
def MCCVal.le (u v : MCCVal) : Prop :=
  (u.num ≤ 0 ∧ 0 ≤ v.num) ∨
  (0 ≤ u.num ∧ 0 ≤ v.num ∧ u.num ^ 2 * (v.radicand : ℤ) ≤ v.num ^ 2 * (u.radicand : ℤ)) ∨
  (u.num ≤ 0 ∧ v.num ≤ 0 ∧ v.num ^ 2 * (u.radicand : ℤ) ≤ u.num ^ 2 * (v.radicand : ℤ))

instance : DecidableRel MCCVal.le := fun u v => by
  unfold MCCVal.le; infer_instance

/-- The represented value equals 1, i.e. `num = √radicand ≠ 0`. -/
def MCCVal.isOne (v : MCCVal) : Prop :=
  0 ≤ v.num ∧ v.num ^ 2 = (v.radicand : ℤ) ∧ v.radicand ≠ 0

instance (v : MCCVal) : Decidable v.isOne := by
  unfold MCCVal.isOne; infer_instance

/-- Matthews correlation from the four confusion counts, with scikit-learn's
convention of returning 0 when the denominator vanishes. -/
def mccOf (tp fp fn tn : ℕ) : MCCVal :=
  let d := (tp + fp) * (tp + fn) * (tn + fp) * (tn + fn)
  if d = 0 then ⟨0, 1⟩ else ⟨(tp : ℤ) * (tn : ℤ) - (fp : ℤ) * (fn : ℤ), d⟩

/-- Binary max under `MCCVal.le`, i.e. `np.maximum` on represented values. -/
def mccMax (u v : MCCVal) : MCCVal := if MCCVal.le u v then v else u

/-- Model of `np.max` over a list of MCC values. -/
def npMaxMCC : List MCCVal → MCCVal
  | [] => ⟨0, 1⟩
  | v :: vs => vs.foldl mccMax v

/-- Model of `sklearn.metrics.matthews_corrcoef(y_true, y_pred)` for labels in
{0, 1} and boolean predictions: the confusion-count formula. -/
def matthews_corrcoef (y_true : List ℚ) (y_pred : List Bool) : MCCVal :=
  let pairs := y_true.zip y_pred
  let tp := pairs.countP (fun z => decide (z.1 = 1) && z.2)
  let fp := pairs.countP (fun z => decide (z.1 = 0) && z.2)
  let fn := pairs.countP (fun z => decide (z.1 = 1) && !z.2)
  let tn := pairs.countP (fun z => decide (z.1 = 0) && !z.2)
  mccOf tp fp fn tn

/-- Model of `np.min` over a nonempty list of naturals. -/
def npMinNat : List ℕ → ℕ
  | [] => 0
  | v :: vs => vs.foldl min v

/-- Model of `np.max` over a nonempty list of naturals. -/
def npMaxNat : List ℕ → ℕ
  | [] => 0
  | v :: vs => vs.foldl max v

/-- Model of `compute_MCC` (evaluation.py lines 25-55): rank the scores, sweep
`threshold_num` evenly spaced thresholds over `[min(rank)-1, max(rank)+1]`,
binarise by `rank > threshold`, and return the maximal Matthews correlation
observed. -/
def compute_MCC (y_true y_score : List ℚ) (threshold_num : ℕ) : MCCVal :=
  let ranks := get_ranks y_score
  let tarr := linspace ((npMinNat ranks : ℚ) - 1) ((npMaxNat ranks : ℚ) + 1) threshold_num
  npMaxMCC (tarr.map (fun t =>
    matthews_corrcoef y_true (ranks.map (fun (r : ℕ) => decide (t < (r : ℚ))))))

/-- IEEE-style value for the degenerate-class analysis: `some q` is the real
number `q`, `none` is NaN. -/
abbrev FVal : Type := Option ℚ

/-- NaN-propagating addition. -/
def fAdd : FVal → FVal → FVal
  | some a, some b => some (a + b)
  | _, _ => none

/-- NaN-propagating subtraction. -/
def fSub : FVal → FVal → FVal
  | some a, some b => some (a - b)
  | _, _ => none

/-- NaN-propagating multiplication (in IEEE, NaN times anything, including 0,
is NaN). -/
def fMul : FVal → FVal → FVal
  | some a, some b => some (a * b)
  | _, _ => none

/-- NaN-propagating division.  A zero divisor gives NaN; in IEEE a nonzero
numerator over zero would give an infinity instead, but every division by zero
reached in the modelled code paths has the form 0/0 (or is never reached), as
noted at the call sites. -/
def fDiv : FVal → FVal → FVal
  | some a, some b => if b = 0 then none else some (a / b)
  | _, _ => none

/-- IEEE comparison: any comparison with NaN is false. -/
def fLe (u v : FVal) : Bool :=
  match u, v with
  | some a, some b => decide (a ≤ b)
  | _, _ => false

/-- IEEE comparison: any comparison with NaN is false. -/
def fLt (u v : FVal) : Bool :=
  match u, v with
  | some a, some b => decide (a < b)
  | _, _ => false

/-- IEEE equality test: NaN is not equal to anything. -/
def fEq (u v : FVal) : Bool :=
  match u, v with
  | some a, some b => decide (a = b)
  | _, _ => false

/-- NaN-aware version of `interpolateOne`; thresholds are ordinary (non-NaN)
reals produced by `np.linspace`. -/
def interpolateOneF (x y : List FVal) (t : ℚ) : Option (List FVal × List FVal) :=
  if 0 < y.countP (fun v => fEq v (some t)) then some (x, y)
  else
    match ((List.range y.length).filter (fun i => fLt (y.getD i none) (some t))).max? with
    | none => none
    | some p =>
      if p + 1 < x.length ∧ p + 1 < y.length then
        some (x.insertIdx (p + 1)
                (fAdd (fDiv (fMul (fSub (some t) (y.getD p none))
                              (fSub (x.getD (p + 1) none) (x.getD p none)))
                        (fSub (y.getD (p + 1) none) (y.getD p none)))
                  (x.getD p none)),
              y.insertIdx (p + 1) (some t))
      else none

/-- NaN-aware version of `perform_interpolation`. -/
def perform_interpolationF (x y : List FVal) (ts : List ℚ) :
    Option (List FVal × List FVal) :=
  match ts with
  | [] => some (x, y)
  | t :: ts =>
    match interpolateOneF x y t with
    | none => none
    | some p => perform_interpolationF p.1 p.2 ts

/-- Boolean comparison of a single float key with NaN sorted last (ties,
including NaN-NaN, count as ≤ so that the stable sort keeps their order). -/
def fKeyLe (u v : FVal) : Bool :=
  match u, v with
  | some a, some b => decide (a ≤ b)
  | _, none => true
  | none, some _ => false

/-- Order on (x, y) points produced by `np.lexsort((y, x))` on float data:
primary key x, secondary key y, NaNs sorted after all reals, stably. -/
def fLexLe (p q : FVal × FVal) : Prop :=
  (match p.1, q.1 with
   | some a, some b => decide (a < b) || (decide (a = b) && fKeyLe p.2 q.2)
   | some _, none => true
   | none, some _ => false
   | none, none => fKeyLe p.2 q.2) = true

instance : DecidableRel fLexLe := fun _ _ =>
  inferInstanceAs (Decidable (_ = true))

/-- NaN-propagating trapezoidal sum. -/
def trapzF : List (FVal × FVal) → FVal
  | [] => some 0
  | [_] => some 0
  | p :: q :: rest =>
    fAdd (fDiv (fMul (fSub q.1 p.1) (fAdd p.2 q.2)) (some 2)) (trapzF (q :: rest))

/-- NaN-aware `auc(x, y, reorder=True)`. -/
def aucF (x y : List FVal) : FVal :=
  trapzF (List.insertionSort fLexLe (x.zip y))

/-- NaN-aware per-band area loop of `compute_Weighted_AUC`. -/
def bandAreasF (fpr tpr : List FVal) : List ℚ → ℕ → Option (List FVal)
  | [], _ => some []
  | b :: bs, low =>
    let cnt := tpr.countP (fun v => fLe v (some b))
    if cnt = 0 then none
    else
      let high := cnt - 1
      let sfpr := (fpr.drop low).take (high + 1 - low)
      let stpr := (tpr.drop low).take (high + 1 - low)
      match stpr with
      | [] => none
      | t0 :: _ =>
        let rtpr := stpr.map (fun v => fSub v t0)
        let ex := some 0 :: sfpr ++ [some 1]
        let ey := rtpr.getD 0 none :: rtpr ++ [rtpr.getLastD none]
        match bandAreasF fpr tpr bs high with
        | none => none
        | some rest => some (aucF ex ey :: rest)

/-- NaN-aware model of `sklearn.metrics.roc_curve`: identical point
construction, with the same conditional (0, 0) prepend (`tps.size == 0 or
fps[0] != 0`, scikit-learn 0.17-0.21), but when a class count is zero the
corresponding rate array is all NaN (scikit-learn emits
`np.repeat(np.nan, ...)` with a warning instead of dividing). -/
def roc_curveF (y_true y_score : List ℚ) : List FVal × List FVal :=
  let pts0 := dropIntermediate
    (cumPoints (List.insertionSort descPairRel (y_score.zip y_true)) 0 0)
  let pts := if pts0 = [] ∨ (pts0.headD (0, 0)).1 ≠ 0 then (0, 0) :: pts0 else pts0
  let nn := (pts.getLastD (0, 0)).1
  let pp := (pts.getLastD (0, 0)).2
  (if nn = 0 then pts.map (fun _ => (none : FVal))
   else pts.map (fun p => some ((p.1 : ℚ) / (nn : ℚ))),
   if pp = 0 then pts.map (fun _ => (none : FVal))
   else pts.map (fun p => some ((p.2 : ℚ) / (pp : ℚ))))

/-- NaN-aware model of `compute_Weighted_AUC`: outer `none` is a raised
exception, an inner `none` is a returned NaN score. -/
def compute_Weighted_AUC_F (y_true y_score : List ℚ) (weight_distribution : List ℚ) :
    Option FVal :=
  let wnum := weight_distribution.length
  let bounds := linspace 0 1 (wnum + 1)
  let r := roc_curveF y_true y_score
  match perform_interpolationF r.1 r.2 ((bounds.drop 1).dropLast) with
  | none => none
  | some fi =>
    match bandAreasF fi.1 fi.2 (bounds.drop 1) 0 with
    | none => none
    | some areas =>
      let wn := weight_distribution.map (fun w => some (w / npMean weight_distribution) : ℚ → FVal)
      some ((List.zipWith fMul areas wn).foldl fAdd (some 0))

/-! ### Basic lemmas about the argwhere helpers and `interpolateOne` -/

theorem getD_of_lt {α : Type} (l : List α) (d : α) {n : ℕ} (h : n < l.length) :
    l.getD n d = l[n] := by
  simp [List.getD_eq_getElem?_getD, List.getElem?_eq_getElem h]

theorem mem_argwhereLt {y : List ℚ} {t : ℚ} {i : ℕ} :
    i ∈ argwhereLt y t ↔ i < y.length ∧ y.getD i 0 < t := by
  simp [argwhereLt, List.mem_filter, List.mem_range]

theorem argwhereLt_max?_eq_some {y : List ℚ} {t : ℚ} {p : ℕ}
    (hp : p < y.length) (hpt : y.getD p 0 < t)
    (hmax : ∀ j, j < y.length → y.getD j 0 < t → j ≤ p) :
    (argwhereLt y t).max? = some p := by
  rw [List.max?_eq_some_iff (le_refl) (max_choice) (fun _ _ _ => max_le_iff)]
  constructor
  · exact mem_argwhereLt.mpr ⟨hp, hpt⟩
  · intro b hb
    obtain ⟨hb1, hb2⟩ := mem_argwhereLt.mp hb
    exact hmax b hb1 hb2

theorem count_eq_zero_of_not_mem {y : List ℚ} {t : ℚ} (h : t ∉ y) :
    y.count t = 0 :=
  List.count_eq_zero.mpr h

theorem interpolateOne_of_mem {x y : List ℚ} {t : ℚ} (h : t ∈ y) :
    interpolateOne x y t = some (x, y) := by
  unfold interpolateOne
  rw [if_pos (List.count_pos_iff.mpr h)]

theorem interpolateOne_insert {x y : List ℚ} {t : ℚ} {p : ℕ}
    (hmem : t ∉ y) (hp : p < y.length) (hpt : y.getD p 0 < t)
    (hmax : ∀ j, j < y.length → y.getD j 0 < t → j ≤ p)
    (hp1 : p + 1 < y.length) (hx1 : p + 1 < x.length) :
    interpolateOne x y t =
      some (x.insertIdx (p + 1)
              ((t - y.getD p 0) * (x.getD (p + 1) 0 - x.getD p 0) /
                (y.getD (p + 1) 0 - y.getD p 0) + x.getD p 0),
            y.insertIdx (p + 1) t) := by
  unfold interpolateOne
  rw [if_neg (by simp [count_eq_zero_of_not_mem hmem]),
    argwhereLt_max?_eq_some hp hpt hmax]
  exact if_pos ⟨hx1, hp1⟩

theorem interpolateOne_none_of_lt {x y : List ℚ} {t : ℚ} (h : ∀ a ∈ y, t < a) :
    interpolateOne x y t = none := by
  have hmem : t ∉ y := fun hm => lt_irrefl t (h t hm)
  have hfilter : argwhereLt y t = [] := by
    rw [List.eq_nil_iff_forall_not_mem]
    intro i hi
    obtain ⟨h1, h2⟩ := mem_argwhereLt.mp hi
    exact absurd h2 (not_lt.mpr (le_of_lt (h _ (by
      rw [getD_of_lt _ _ h1]; exact List.getElem_mem h1))))
  unfold interpolateOne
  rw [if_neg (by simp [count_eq_zero_of_not_mem hmem]), hfilter]
  rfl

theorem interpolateOne_none_of_gt {x y : List ℚ} {t : ℚ}
    (hmem : t ∉ y) (h : ∀ a ∈ y, a < t) :
    interpolateOne x y t = none := by
  unfold interpolateOne
  rw [if_neg (by simp [count_eq_zero_of_not_mem hmem])]
  rcases eq_or_ne y [] with hy | hy
  · subst hy
    rfl
  · have hlen : 0 < y.length := List.length_pos.mpr hy
    have hmax : (argwhereLt y t).max? = some (y.length - 1) := by
      apply argwhereLt_max?_eq_some (Nat.sub_lt hlen one_pos)
      · rw [getD_of_lt _ _ (Nat.sub_lt hlen one_pos)]
        exact h _ (List.getElem_mem _)
      · intro j hj _
        omega
    rw [hmax]
    exact if_neg (by omega)

/-! ### C7: targets outside the y range make the interpolation fail -/

/-- C7: for every target strictly below the minimum of `y_array` or strictly
above its maximum, `perform_interpolation` fails with an explicit error
(modelled by `none`: `np.max` of an empty `argwhere` below the minimum, an
out-of-range index access above the maximum) rather than returning a result. -/
theorem perform_interpolation_outside_fails (x y : List ℚ) (t : ℚ) (_hy : y ≠ [])
    (h : (∀ a ∈ y, t < a) ∨ (∀ a ∈ y, a < t)) :
    perform_interpolation x y [t] = none := by
  unfold perform_interpolation
  rcases h with h | h
  · rw [interpolateOne_none_of_lt h]
  · have hmem : t ∉ y := fun hm => lt_irrefl t (h t hm)
    rw [interpolateOne_none_of_gt hmem h]

/-- Witness for C7 at a concrete input: `y = [0, 1]`, target `2` above the
maximum. -/
theorem perform_interpolation_outside_fails_witness :
    (([(0:ℚ), 1] : List ℚ) ≠ [] ∧ (∀ a ∈ [(0:ℚ), 1], a < 2)) ∧
    perform_interpolation [(5:ℚ), 6] [(0:ℚ), 1] [2] = none :=
  ⟨⟨by decide, by decide⟩,
    perform_interpolation_outside_fails [5, 6] [0, 1] 2 (by decide)
      (Or.inr (by decide))⟩

/-! ### C2: the insertion step of the interpolator -/

/-- C2: for parallel sequences `x`, `y` and a target `t` not present in `y`,
if `p` is the largest index with `y[p] < t` and the bracketing successor
satisfies `y[p+1] > t`, then `perform_interpolation` inserts the point
`(x[p] + (t - y[p])(x[p+1] - x[p])/(y[p+1] - y[p]), t)` between indices `p`
and `p+1`, leaving all original points unchanged and in order (which is
exactly what `List.insertIdx (p+1)` expresses). -/
theorem perform_interpolation_single_insert (x y : List ℚ) (t : ℚ) (p : ℕ)
    (hlen : x.length = y.length)
    (hmem : t ∉ y)
    (hp : p < y.length) (hpt : y.getD p 0 < t)
    (hmax : ∀ j, j < y.length → y.getD j 0 < t → j ≤ p)
    (hp1 : p + 1 < y.length) (_hsucc : t < y.getD (p + 1) 0) :
    perform_interpolation x y [t] =
      some (x.insertIdx (p + 1)
              (x.getD p 0 + (t - y.getD p 0) * (x.getD (p + 1) 0 - x.getD p 0) /
                (y.getD (p + 1) 0 - y.getD p 0)),
            y.insertIdx (p + 1) t) := by
  unfold perform_interpolation
  rw [interpolateOne_insert hmem hp hpt hmax hp1 (hlen ▸ hp1)]
  have hval : (t - y.getD p 0) * (x.getD (p + 1) 0 - x.getD p 0) /
        (y.getD (p + 1) 0 - y.getD p 0) + x.getD p 0 =
      x.getD p 0 + (t - y.getD p 0) * (x.getD (p + 1) 0 - x.getD p 0) /
        (y.getD (p + 1) 0 - y.getD p 0) := add_comm _ _
  rw [hval]
  rfl

/-- Witness for C2 at `x = y = [0, 1]`, `t = 1/2`, `p = 0`. -/
theorem perform_interpolation_single_insert_witness :
    ((1:ℚ)/2 ∉ [(0:ℚ), 1] ∧ ([(0:ℚ), 1] : List ℚ).getD 0 0 < 1/2 ∧
      (1:ℚ)/2 < ([(0:ℚ), 1] : List ℚ).getD 1 0) ∧
    perform_interpolation [(0:ℚ), 1] [(0:ℚ), 1] [1/2] =
      some ([0, 1/2, 1], [0, 1/2, 1]) := by
  refine ⟨⟨by decide, by decide, by decide⟩, ?_⟩
  rw [perform_interpolation_single_insert [(0:ℚ), 1] [(0:ℚ), 1] (1/2) 0
    (by decide) (by decide) (by decide) (by decide) (by decide) (by decide) (by decide)]
  decide

/-! ### C1: perfect separation does not score 1: the program raises -/

/-- Counterexample to C1: for labels `[0]*50 ++ [1]*50` and scores equal to
the labels, `compute_Weighted_AUC` with five equal weights does not return 1:
the ROC curve is `fpr = [0, 1]`, `tpr = [1, 1]` (scikit-learn 0.17-0.21 adds
no (0, 0) point because `fps[0] = 0`), so interpolating the first band
boundary 1/5 evaluates `np.max(np.argwhere(tpr < 0.2))` on an empty array and
raises a ValueError, modelled as `none`. -/
theorem weighted_auc_perfect_separation_raises :
    compute_Weighted_AUC (List.replicate 50 0 ++ List.replicate 50 1)
      (List.replicate 50 0 ++ List.replicate 50 1) [1, 1, 1, 1, 1] = none := by
  decide

/-- C1 amended: for labels `[0]*50 ++ [1]*50` and scores equal to the labels,
`compute_Weighted_AUC` raises a ValueError inside `perform_interpolation`
instead of returning a score, both with five equal weights and with
`weight_distribution = [0, 0, 0, 0, 1]`: the perfectly separated curve has no
(0, 0) point and starts at TPR 1, so the first interior boundary has no curve
point below it. -/
theorem weighted_auc_perfect_separation :
    compute_Weighted_AUC (List.replicate 50 0 ++ List.replicate 50 1)
        (List.replicate 50 0 ++ List.replicate 50 1) [1, 1, 1, 1, 1] = none ∧
    compute_Weighted_AUC (List.replicate 50 0 ++ List.replicate 50 1)
        (List.replicate 50 0 ++ List.replicate 50 1) [0, 0, 0, 0, 1] = none := by
  constructor
  · decide
  · decide

/-! ### C8: single-class inputs are not rejected -/

/-- Counterexample to C8: on the all-positive label set `[1, 1, 1, 1, 1]`
with distinct scores (no negatives), `compute_Weighted_AUC` does not detect
the zero-count class and does not raise: scikit-learn's `roc_curve` returns
an all-NaN FPR array (`fps[-1] = 0`, and no (0, 0) point is prepended since
`fps[0] = 0`) with `tpr = [1/5, 1]`; the NaN values propagate through the
interpolation, the trapezoidal areas and the weighted sum, and the function
returns a NaN score (`some none`: no exception, NaN value). -/
theorem weighted_auc_single_class_returns_nan :
    compute_Weighted_AUC_F [1, 1, 1, 1, 1] [1/10, 2/10, 3/10, 4/10, 5/10]
      [4, 3, 2, 1, 0] = some none := by
  decide

/-- C8 amended: `compute_Weighted_AUC` performs no zero-count class check:
there are all-positive inputs for which it returns NaN rather than failing
with an explicit error, and all-negative inputs on which it raises only
incidentally (a ValueError inside `perform_interpolation`, where the all-NaN
TPR axis leaves `np.argwhere` empty), in both cases without any class-count
detection. -/
theorem weighted_auc_no_single_class_check :
    (∃ y_true y_score : List ℚ, y_true ≠ [] ∧ (∀ l ∈ y_true, l = 1) ∧
      compute_Weighted_AUC_F y_true y_score [4, 3, 2, 1, 0] = some none) ∧
    (∃ y_true y_score : List ℚ, y_true ≠ [] ∧ (∀ l ∈ y_true, l = 0) ∧
      compute_Weighted_AUC_F y_true y_score [4, 3, 2, 1, 0] = none) :=
  ⟨⟨[1, 1, 1, 1, 1], [1/10, 2/10, 3/10, 4/10, 5/10],
    by decide, by decide, by decide⟩,
   ⟨[0, 0], [1/5, 4/5], by decide, by decide, by decide⟩⟩

/-! ### C4: idempotence of the interpolator -/

theorem interpolateOne_some_mem {x y x2 y2 : List ℚ} {t : ℚ}
    (h : interpolateOne x y t = some (x2, y2)) :
    (∀ a ∈ y, a ∈ y2) ∧ t ∈ y2 := by
  unfold interpolateOne at h
  split at h
  next hc =>
    obtain ⟨rfl, rfl⟩ : x = x2 ∧ y = y2 := by simpa using h
    exact ⟨fun a ha => ha, List.count_pos_iff.mp hc⟩
  next hc =>
    split at h
    · exact absurd h (by simp)
    next p hp =>
      split at h
      next hcond =>
        obtain ⟨rfl, rfl⟩ : _ ∧ _ := by simpa using h
        have hle : p + 1 ≤ y.length := le_of_lt hcond.2
        constructor
        · intro a ha
          exact (List.mem_insertIdx hle).mpr (Or.inr ha)
        · exact (List.mem_insertIdx hle).mpr (Or.inl rfl)
      · exact absurd h (by simp)

theorem perform_interpolation_some_mem : ∀ {ts : List ℚ} {x y x2 y2 : List ℚ},
    perform_interpolation x y ts = some (x2, y2) →
    (∀ a ∈ y, a ∈ y2) ∧ (∀ t ∈ ts, t ∈ y2) := by
  intro ts
  induction ts with
  | nil =>
    intro x y x2 y2 h
    obtain ⟨rfl, rfl⟩ : x = x2 ∧ y = y2 := by
      simpa [perform_interpolation] using h
    exact ⟨fun a ha => ha, by simp⟩
  | cons t ts ih =>
    intro x y x2 y2 h
    unfold perform_interpolation at h
    cases hi : interpolateOne x y t with
    | none => rw [hi] at h; exact absurd h (by simp)
    | some q =>
      rw [hi] at h
      have hi2 : interpolateOne x y t = some (q.1, q.2) := by rwa [Prod.mk.eta]
      obtain ⟨h1, h2⟩ := interpolateOne_some_mem hi2
      obtain ⟨hmem, hts⟩ := ih h
      refine ⟨fun a ha => hmem _ (h1 a ha), fun s hs => ?_⟩
      rcases List.mem_cons.mp hs with rfl | hs
      · exact hmem _ h2
      · exact hts s hs

theorem perform_interpolation_of_all_mem : ∀ {ts : List ℚ} {x y : List ℚ},
    (∀ t ∈ ts, t ∈ y) → perform_interpolation x y ts = some (x, y) := by
  intro ts
  induction ts with
  | nil => intro x y _; rfl
  | cons t ts ih =>
    intro x y h
    unfold perform_interpolation
    rw [interpolateOne_of_mem (h t (by simp))]
    exact ih (fun s hs => h s (by simp [hs]))

/-- C4: a target already present in `y` causes no insertion (the arrays are
returned unchanged), and a second application of `perform_interpolation` with
the same target set returns exactly the result of the first application. -/
theorem perform_interpolation_idempotent (x y : List ℚ) (ts : List ℚ) :
    (∀ t ∈ y, perform_interpolation x y [t] = some (x, y)) ∧
    (∀ x2 y2, perform_interpolation x y ts = some (x2, y2) →
      perform_interpolation x2 y2 ts = some (x2, y2)) := by
  constructor
  · intro t ht
    unfold perform_interpolation
    rw [interpolateOne_of_mem ht]
    rfl
  · intro x2 y2 h
    exact perform_interpolation_of_all_mem
      (fun t ht => (perform_interpolation_some_mem h).2 t ht)

/-- Witness for C4: a present target (`1`) is skipped; re-applying the
interpolator to the output of a first interpolation (`t = 1/2` into
`[0, 1]`) reproduces that output. -/
theorem perform_interpolation_idempotent_witness :
    perform_interpolation [(0:ℚ), 1] [(0:ℚ), 1] [1] = some ([0, 1], [0, 1]) ∧
    perform_interpolation [(0:ℚ), 1/2, 1] [(0:ℚ), 1/2, 1] [1/2] =
      some ([0, 1/2, 1], [0, 1/2, 1]) :=
  ⟨(perform_interpolation_idempotent [0, 1] [0, 1] [1]).1 1 (by decide),
   (perform_interpolation_idempotent [0, 1] [0, 1] [1/2]).2 [0, 1/2, 1] [0, 1/2, 1]
     (by decide)⟩

/-! ### C9: interpolation preserves monotonicity -/

theorem insertIdx_eq_take_cons_drop {α : Type} (a : α) :
    ∀ (n : ℕ) (l : List α), n ≤ l.length →
      l.insertIdx n a = l.take n ++ a :: l.drop n
  | 0, l, _ => by simp
  | n + 1, [], h => by simp at h
  | n + 1, b :: l, h => by
    simp only [List.insertIdx_succ_cons, List.take_succ_cons, List.drop_succ_cons,
      List.cons_append, List.cons.injEq, true_and]
    exact insertIdx_eq_take_cons_drop a n l (Nat.le_of_succ_le_succ h)

theorem sorted_getElem_le {y : List ℚ} (hsort : y.Sorted (· ≤ ·)) {i j : ℕ}
    (hij : i ≤ j) (hj : j < y.length) (hi : i < y.length) : y[i] ≤ y[j] := by
  rcases Nat.lt_or_ge i j with hlt | hge
  · exact List.pairwise_iff_get.mp hsort ⟨i, _⟩ ⟨j, _⟩ hlt
  · have : i = j := le_antisymm hij hge
    subst this
    exact le_refl _

theorem sorted_insertIdx_middle {y : List ℚ} {t : ℚ} {p : ℕ}
    (hsort : y.Sorted (· ≤ ·)) (hp1 : p + 1 ≤ y.length)
    (hbelow : ∀ i, (hi : i < y.length) → i ≤ p → y[i] ≤ t)
    (habove : ∀ j, (hj : j < y.length) → p < j → t ≤ y[j]) :
    (y.insertIdx (p + 1) t).Sorted (· ≤ ·) := by
  rw [insertIdx_eq_take_cons_drop t (p + 1) y hp1]
  rw [List.Sorted, List.pairwise_append]
  refine ⟨hsort.sublist (List.take_sublist _ _), ?_, ?_⟩
  · rw [List.pairwise_cons]
    refine ⟨?_, hsort.sublist (List.drop_sublist _ _)⟩
    intro b hb
    obtain ⟨k, hk, rfl⟩ := List.getElem_of_mem hb
    have hk2 : k < y.length - (p + 1) := by simpa using hk
    rw [List.getElem_drop]
    exact habove _ (by omega) (by omega)
  · intro a ha b hb
    obtain ⟨i, hi, rfl⟩ := List.getElem_of_mem ha
    have hi2 : i < p + 1 := by
      have := List.length_take_le (p + 1) y
      omega
    have hiy : i < y.length := by omega
    rw [List.getElem_take]
    rcases List.mem_cons.mp hb with rfl | hbd
    · exact hbelow i hiy (by omega)
    · obtain ⟨k, hk, rfl⟩ := List.getElem_of_mem hbd
      have hk2 : k < y.length - (p + 1) := by simpa using hk
      rw [List.getElem_drop]
      exact le_trans (hbelow i hiy (by omega)) (habove _ (by omega) (by omega))

theorem interpolateOne_sorted_success {x y : List ℚ} {t : ℚ}
    (hsort : y.Sorted (· ≤ ·)) (hlen : x.length = y.length)
    (hcond : t ∈ y ∨ ((∃ a ∈ y, a < t) ∧ (∃ b ∈ y, t < b))) :
    ∃ x2 y2, interpolateOne x y t = some (x2, y2) ∧
      x2.length = y2.length ∧ y2.Sorted (· ≤ ·) ∧
      (∀ a ∈ y, a ∈ y2) ∧ t ∈ y2 ∧ (∀ a ∈ y2, a ∈ y ∨ a = t) ∧
      (∀ lo hi : ℚ, (∀ v ∈ x, lo ≤ v ∧ v ≤ hi) → ∀ v ∈ x2, lo ≤ v ∧ v ≤ hi) := by
  by_cases hmem : t ∈ y
  · exact ⟨x, y, interpolateOne_of_mem hmem, hlen, hsort, fun a ha => ha, hmem,
      fun a ha => Or.inl ha, fun lo hi h => h⟩
  rcases hcond with h | ⟨⟨a, ha, hat⟩, ⟨b, hb, htb⟩⟩
  · contradiction
  obtain ⟨ia, hia, rfl⟩ := List.getElem_of_mem ha
  obtain ⟨jb, hjb, rfl⟩ := List.getElem_of_mem hb
  have hiaw : ia ∈ argwhereLt y t :=
    mem_argwhereLt.mpr ⟨hia, by rw [getD_of_lt _ _ hia]; exact hat⟩
  rcases hmx : (argwhereLt y t).max? with _ | p
  · rw [List.max?_eq_none_iff] at hmx
    rw [hmx] at hiaw
    cases hiaw
  have hmx2 := (List.max?_eq_some_iff (le_refl) (max_choice)
    (fun _ _ _ => max_le_iff)).mp hmx
  obtain ⟨hpw, hpmax'⟩ := hmx2
  obtain ⟨hp, hpt⟩ := mem_argwhereLt.mp hpw
  have hmax : ∀ j, j < y.length → y.getD j 0 < t → j ≤ p := fun j h1 h2 =>
    hpmax' j (mem_argwhereLt.mpr ⟨h1, h2⟩)
  have hptE : y[p] < t := by rw [getD_of_lt _ _ hp] at hpt; exact hpt
  have hpjb : p < jb := by
    by_contra hc
    push_neg at hc
    have := sorted_getElem_le hsort hc hp (by omega)
    exact absurd htb (not_lt.mpr (le_of_lt (lt_of_le_of_lt this hptE)))
  have hp1 : p + 1 < y.length := by omega
  have hx1 : p + 1 < x.length := by omega
  have habove : ∀ j, (hj : j < y.length) → p < j → t ≤ y[j] := by
    intro j hj hpj
    by_contra hc
    push_neg at hc
    have := hmax j hj (by rw [getD_of_lt _ _ hj]; exact hc)
    omega
  have hbelow : ∀ i, (hi : i < y.length) → i ≤ p → y[i] ≤ t := fun i hi hip =>
    le_of_lt (lt_of_le_of_lt (sorted_getElem_le hsort hip hp hi) hptE)
  have hy2len : p + 1 ≤ y.length := le_of_lt hp1
  have hx2len : p + 1 ≤ x.length := le_of_lt hx1
  refine ⟨_, _, interpolateOne_insert hmem hp hpt hmax hp1 hx1, ?_, ?_, ?_, ?_, ?_, ?_⟩
  · rw [List.length_insertIdx _ _ hx2len, List.length_insertIdx _ _ hy2len, hlen]
  · exact sorted_insertIdx_middle hsort hy2len hbelow habove
  · intro v hv
    exact (List.mem_insertIdx hy2len).mpr (Or.inr hv)
  · exact (List.mem_insertIdx hy2len).mpr (Or.inl rfl)
  · intro v hv
    rcases (List.mem_insertIdx hy2len).mp hv with rfl | hv
    · exact Or.inr rfl
    · exact Or.inl hv
  · intro lo hi hbd v hv
    rcases (List.mem_insertIdx hx2len).mp hv with rfl | hv
    · have hyp1 : t < y[p + 1] := by
        rcases lt_or_eq_of_le (habove (p + 1) hp1 (by omega)) with h | h
        · exact h
        · exact absurd (h ▸ List.getElem_mem hp1) hmem
      have hD : (0:ℚ) < y[p + 1] - y[p] := by linarith
      have hxpb := hbd _ (List.getElem_mem (Nat.lt_of_succ_lt hx1))
      have hxp1b := hbd _ (List.getElem_mem hx1)
      rw [getD_of_lt _ _ hp1, getD_of_lt _ _ hp,
        getD_of_lt _ _ (Nat.lt_of_succ_lt hx1), getD_of_lt _ _ hx1]
      set xp := x[p]
      set xp1 := x[p + 1]
      set yp := y[p]
      set yp1 := y[p + 1]
      have hval : (t - yp) * (xp1 - xp) / (yp1 - yp) + xp =
          xp + (t - yp) / (yp1 - yp) * (xp1 - xp) := by ring
      rw [hval]
      set lam := (t - yp) / (yp1 - yp) with hlam
      have h0 : 0 ≤ lam := div_nonneg (by linarith) (le_of_lt hD)
      have h1 : lam ≤ 1 := (div_le_one hD).mpr (by linarith)
      constructor
      · nlinarith [mul_nonneg (by linarith : (0:ℚ) ≤ 1 - lam)
          (by linarith [hxpb.1] : (0:ℚ) ≤ xp - lo),
          mul_nonneg h0 (by linarith [hxp1b.1] : (0:ℚ) ≤ xp1 - lo)]
      · nlinarith [mul_nonneg (by linarith : (0:ℚ) ≤ 1 - lam)
          (by linarith [hxpb.2] : (0:ℚ) ≤ hi - xp),
          mul_nonneg h0 (by linarith [hxp1b.2] : (0:ℚ) ≤ hi - xp1)]
    · exact hbd v hv

theorem perform_interpolation_sorted_success : ∀ {ts x y : List ℚ},
    y.Sorted (· ≤ ·) → x.length = y.length →
    (∀ t ∈ ts, t ∈ y ∨ ((∃ a ∈ y, a < t) ∧ (∃ b ∈ y, t < b))) →
    ∃ x2 y2, perform_interpolation x y ts = some (x2, y2) ∧
      x2.length = y2.length ∧ y2.Sorted (· ≤ ·) ∧
      (∀ a ∈ y, a ∈ y2) ∧ (∀ t ∈ ts, t ∈ y2) ∧
      (∀ a ∈ y2, a ∈ y ∨ a ∈ ts) ∧
      (∀ lo hi : ℚ, (∀ v ∈ x, lo ≤ v ∧ v ≤ hi) → ∀ v ∈ x2, lo ≤ v ∧ v ≤ hi) := by
  intro ts
  induction ts with
  | nil =>
    intro x y hs hl _
    exact ⟨x, y, rfl, hl, hs, fun a ha => ha, by simp, fun a ha => Or.inl ha,
      fun lo hi h => h⟩
  | cons t ts ih =>
    intro x y hs hl hts
    obtain ⟨x1, y1, hstep, hl1, hs1, hmem1, htmem1, hsub1, hbd1⟩ :=
      interpolateOne_sorted_success hs hl (hts t (by simp))
    have hts1 : ∀ s ∈ ts, s ∈ y1 ∨ ((∃ a ∈ y1, a < s) ∧ (∃ b ∈ y1, s < b)) := by
      intro s hsm
      rcases hts s (by simp [hsm]) with h | ⟨⟨a, ha, haa⟩, ⟨b, hb, hbb⟩⟩
      · exact Or.inl (hmem1 s h)
      · exact Or.inr ⟨⟨a, hmem1 a ha, haa⟩, ⟨b, hmem1 b hb, hbb⟩⟩
    obtain ⟨x2, y2, hrest, hl2, hs2, hmem2, htm2, hsub2, hbd2⟩ := ih hs1 hl1 hts1
    refine ⟨x2, y2, ?_, hl2, hs2, fun a ha => hmem2 a (hmem1 a ha), ?_, ?_, ?_⟩
    · unfold perform_interpolation
      rw [hstep]
      exact hrest
    · intro s hsm
      rcases List.mem_cons.mp hsm with rfl | hsm
      · exact hmem2 s htmem1
      · exact htm2 s hsm
    · intro a ha
      rcases hsub2 a ha with h | h
      · rcases hsub1 a h with h | rfl
        · exact Or.inl h
        · exact Or.inr (by simp)
      · exact Or.inr (by simp [h])
    · intro lo hi hb v hv
      exact hbd2 lo hi (hbd1 lo hi hb) v hv

/-- C9: interpolation preserves monotonicity.  For a non-decreasing `y_array`
and a target set in which every target absent from `y_array` has some element
strictly below it and its bracketing successor strictly above it (equivalently
for a sorted array: some element strictly above it), `perform_interpolation`
succeeds and the returned `y_array` is again non-decreasing. -/
theorem perform_interpolation_preserves_monotone (x y ts : List ℚ)
    (hsort : y.Sorted (· ≤ ·)) (hlen : x.length = y.length)
    (hts : ∀ t ∈ ts, t ∉ y → (∃ a ∈ y, a < t) ∧ (∃ b ∈ y, t < b)) :
    ∃ x2 y2, perform_interpolation x y ts = some (x2, y2) ∧
      y2.Sorted (· ≤ ·) := by
  obtain ⟨x2, y2, h1, _, h3, _⟩ := perform_interpolation_sorted_success hsort hlen
    (fun t ht => (em (t ∈ y)).elim Or.inl (fun hm => Or.inr (hts t ht hm)))
  exact ⟨x2, y2, h1, h3⟩

/-- Witness for C9 with `x = y = [0, 1]` and targets `[1/2, 1/4]`. -/
theorem perform_interpolation_preserves_monotone_witness :
    ([(0:ℚ), 1] : List ℚ).Sorted (· ≤ ·) ∧
    (∃ x2 y2, perform_interpolation [(0:ℚ), 1] [(0:ℚ), 1] [1/2, 1/4] = some (x2, y2) ∧
      y2.Sorted (· ≤ ·)) :=
  ⟨by decide,
    perform_interpolation_preserves_monotone [0, 1] [0, 1] [1/2, 1/4]
      (by decide) (by decide) (by decide)⟩

/-! ### C10: the first matching curve point is returned -/

theorem interpolateOne_some_length {x y x2 y2 : List ℚ} {t : ℚ}
    (h : interpolateOne x y t = some (x2, y2)) (hl : x.length = y.length) :
    x2.length = y2.length := by
  unfold interpolateOne at h
  split at h
  next =>
    obtain ⟨rfl, rfl⟩ : x = x2 ∧ y = y2 := by simpa using h
    exact hl
  next =>
    split at h
    · exact absurd h (by simp)
    next p hp =>
      split at h
      next hcond =>
        obtain ⟨rfl, rfl⟩ : _ ∧ _ := by simpa using h
        rw [List.length_insertIdx _ _ (le_of_lt hcond.1),
          List.length_insertIdx _ _ (le_of_lt hcond.2), hl]
      · exact absurd h (by simp)

theorem perform_interpolation_some_length : ∀ {ts x y x2 y2 : List ℚ},
    perform_interpolation x y ts = some (x2, y2) → x.length = y.length →
    x2.length = y2.length := by
  intro ts
  induction ts with
  | nil =>
    intro x y x2 y2 h hl
    obtain ⟨rfl, rfl⟩ : x = x2 ∧ y = y2 := by simpa [perform_interpolation] using h
    exact hl
  | cons t ts ih =>
    intro x y x2 y2 h hl
    unfold perform_interpolation at h
    cases hi : interpolateOne x y t with
    | none => rw [hi] at h; exact absurd h (by simp)
    | some q =>
      rw [hi] at h
      have h2 : perform_interpolation q.1 q.2 ts = some (x2, y2) := h
      have hq : interpolateOne x y t = some (q.1, q.2) := hi.trans (by rw [Prod.mk.eta])
      exact ih h2 (interpolateOne_some_length hq hl)

theorem roc_curve_length_eq (y_true y_score : List ℚ) :
    (roc_curve y_true y_score).1.length = (roc_curve y_true y_score).2.length := by
  simp [roc_curve]

theorem mem_argwhereEq {y : List ℚ} {t : ℚ} {i : ℕ} :
    i ∈ argwhereEq y t ↔ i < y.length ∧ y.getD i 0 = t := by
  simp [argwhereEq, List.mem_filter, List.mem_range]

theorem head_filter_min {p : ℕ → Bool} : ∀ {l : List ℕ}, l.Pairwise (· < ·) →
    ∀ {i : ℕ} {rest : List ℕ}, l.filter p = i :: rest →
    p i = true ∧ i ∈ l ∧ ∀ j ∈ l, j < i → p j = false := by
  intro l
  induction l with
  | nil => intro _ i rest h; simp at h
  | cons a l ih =>
    intro hsort i rest h
    rw [List.pairwise_cons] at hsort
    obtain ⟨ha, hl⟩ := hsort
    by_cases hpa : p a
    · rw [List.filter_cons_of_pos hpa] at h
      obtain ⟨rfl, rfl⟩ : a = i ∧ l.filter p = rest := by simpa using h
      refine ⟨hpa, by simp, ?_⟩
      intro j hj hji
      rcases List.mem_cons.mp hj with rfl | hj
      · omega
      · exact absurd hji (not_lt.mpr (le_of_lt (ha j hj)))
    · rw [List.filter_cons_of_neg hpa] at h
      obtain ⟨h1, h2, h3⟩ := ih hl h
      refine ⟨h1, by simp [h2], ?_⟩
      intro j hj hji
      rcases List.mem_cons.mp hj with rfl | hj
      · exact Bool.not_eq_true _ ▸ (by simpa using hpa)
      · exact h3 j hj hji

/-- C10: when the chosen FPR occurs at more than one point of the (possibly
interpolated) ROC curve, `compute_tpr_with_fpr` returns the TPR paired with
the first (smallest-index) curve point whose FPR equals `chosen_fpr`
(`np.argwhere(fpr == chosen_fpr)[0][0]`). -/
theorem compute_tpr_with_fpr_first_match (y_true y_score : List ℚ) (c : ℚ)
    (t2 f2 : List ℚ)
    (hpi : perform_interpolation (roc_curve y_true y_score).2
      (roc_curve y_true y_score).1 [c] = some (t2, f2))
    (hdup : ∃ i j, i < j ∧ j < f2.length ∧ f2.getD i 0 = c ∧ f2.getD j 0 = c) :
    ∃ i0, i0 < f2.length ∧ f2.getD i0 0 = c ∧ (∀ j, j < i0 → f2.getD j 0 ≠ c) ∧
      compute_tpr_with_fpr y_true y_score c = some (t2.getD i0 0) := by
  have hlen : t2.length = f2.length :=
    perform_interpolation_some_length hpi (roc_curve_length_eq y_true y_score).symm
  obtain ⟨i, j, hij, hjl, hic, _⟩ := hdup
  have hine : i ∈ argwhereEq f2 c := mem_argwhereEq.mpr ⟨by omega, hic⟩
  rcases hae : argwhereEq f2 c with _ | ⟨i0, rest⟩
  · rw [hae] at hine
    cases hine
  · obtain ⟨h1, h2, h3⟩ := head_filter_min (List.pairwise_lt_range _) hae
    have hi0 : i0 < f2.length := List.mem_range.mp h2
    refine ⟨i0, hi0, by simpa using h1, ?_, ?_⟩
    · intro j2 hj2
      have : j2 ∈ List.range f2.length := List.mem_range.mpr (by omega)
      have := h3 j2 this hj2
      simpa using this
    · unfold compute_tpr_with_fpr
      dsimp only
      rw [hpi]
      dsimp only
      rw [hae]
      dsimp only
      rw [List.getElem?_eq_getElem (by omega : i0 < t2.length)]
      rw [getD_of_lt _ _ (by omega : i0 < t2.length)]

/-- Witness for C10: labels `[0, 0, 1, 1]`, scores `[1/10, 2/5, 7/20, 4/5]`,
chosen FPR `1/2`: the curve has FPR values `[0, 1/2, 1/2, 1]` (duplicate at
indices 1 and 2) with TPR values `[1/2, 1/2, 1, 1]`, and the function returns
the TPR `1/2` of the first matching point, not the TPR `1` of the second. -/
theorem compute_tpr_with_fpr_first_match_witness :
    (perform_interpolation
        (roc_curve [(0:ℚ), 0, 1, 1] [1/10, 2/5, 7/20, 4/5]).2
        (roc_curve [(0:ℚ), 0, 1, 1] [1/10, 2/5, 7/20, 4/5]).1 [1/2]
      = some ([1/2, 1/2, 1, 1], [0, 1/2, 1/2, 1])) ∧
    (∃ i0, i0 < ([(0:ℚ), 1/2, 1/2, 1] : List ℚ).length ∧
      ([(0:ℚ), 1/2, 1/2, 1] : List ℚ).getD i0 0 = 1/2 ∧
      (∀ j, j < i0 → ([(0:ℚ), 1/2, 1/2, 1] : List ℚ).getD j 0 ≠ 1/2) ∧
      compute_tpr_with_fpr [(0:ℚ), 0, 1, 1] [1/10, 2/5, 7/20, 4/5] (1/2) =
        some (([(1:ℚ)/2, 1/2, 1, 1] : List ℚ).getD i0 0)) :=
  ⟨by decide,
    compute_tpr_with_fpr_first_match [0, 0, 1, 1] [1/10, 2/5, 7/20, 4/5] (1/2)
      [1/2, 1/2, 1, 1] [0, 1/2, 1/2, 1]
      (by decide) ⟨1, 2, by decide, by decide, by decide, by decide⟩⟩

/-! ### C5: the rank transform -/

theorem argsortRel_total {α : Type} [LinearOrder α] (a : List α) (d : α) :
    ∀ i j, argsortRel a d i j ∨ argsortRel a d j i := by
  intro i j
  rcases lt_trichotomy (a.getD i d) (a.getD j d) with h | h | h
  · exact Or.inl (Or.inl h)
  · rcases le_total i j with hij | hij
    · exact Or.inl (Or.inr ⟨h, hij⟩)
    · exact Or.inr (Or.inr ⟨h.symm, hij⟩)
  · exact Or.inr (Or.inl h)

theorem argsortRel_trans {α : Type} [LinearOrder α] (a : List α) (d : α) :
    ∀ i j k, argsortRel a d i j → argsortRel a d j k → argsortRel a d i k := by
  intro i j k hij hjk
  rcases hij with h1 | ⟨h1, h1'⟩ <;> rcases hjk with h2 | ⟨h2, h2'⟩
  · exact Or.inl (lt_trans h1 h2)
  · exact Or.inl (h2 ▸ h1)
  · exact Or.inl (h1 ▸ h2)
  · exact Or.inr ⟨h1.trans h2, le_trans h1' h2'⟩

theorem argsortRel_antisymm {α : Type} [LinearOrder α] (a : List α) (d : α) :
    ∀ i j, argsortRel a d i j → argsortRel a d j i → i = j := by
  intro i j hij hji
  rcases hij with h1 | ⟨h1, h1'⟩ <;> rcases hji with h2 | ⟨h2, h2'⟩
  · exact absurd (lt_trans h1 h2) (lt_irrefl _)
  · exact absurd (h2 ▸ h1) (lt_irrefl _)
  · exact absurd (h1 ▸ h2) (lt_irrefl _)
  · exact le_antisymm h1' h2'

theorem argsort_perm {α : Type} [LinearOrder α] [Inhabited α] (a : List α) :
    (argsort a).Perm (List.range a.length) :=
  List.perm_insertionSort _ _

theorem argsort_length {α : Type} [LinearOrder α] [Inhabited α] (a : List α) :
    (argsort a).length = a.length := by
  have := (argsort_perm a).length_eq
  simpa using this

theorem argsort_sorted {α : Type} [LinearOrder α] [Inhabited α] (a : List α) :
    (argsort a).Sorted (argsortRel a default) := by
  haveI : IsTotal ℕ (argsortRel a default) := ⟨argsortRel_total a default⟩
  haveI : IsTrans ℕ (argsortRel a default) := ⟨argsortRel_trans a default⟩
  exact List.sorted_insertionSort _ _

theorem argsort_nodup {α : Type} [LinearOrder α] [Inhabited α] (a : List α) :
    (argsort a).Nodup :=
  (argsort_perm a).nodup_iff.mpr (List.nodup_range _)

theorem perm_range_of_nodup_lt {l : List ℕ} {n : ℕ} (hlen : l.length = n)
    (hnd : l.Nodup) (hlt : ∀ v ∈ l, v < n) : l.Perm (List.range n) := by
  apply List.perm_of_nodup_nodup_toFinset_eq hnd (List.nodup_range n)
  apply Finset.eq_of_subset_of_card_le
  · intro v hv
    rw [List.mem_toFinset] at hv
    rw [List.mem_toFinset, List.mem_range]
    exact hlt v hv
  · rw [List.toFinset_card_of_nodup (List.nodup_range n),
      List.toFinset_card_of_nodup hnd, List.length_range]
    omega

/-- The argsort of a permutation of `range n` (viewed as a list of distinct
values) is its inverse permutation: position `v` holds the index at which the
value `v` sits. -/
theorem argsort_of_perm_range {σ : List ℕ} {n : ℕ} (hperm : σ.Perm (List.range n)) :
    argsort σ = (List.range n).map (fun v => σ.indexOf v) := by
  have hlen : σ.length = n := by simpa using hperm.length_eq
  have hnd : σ.Nodup := hperm.nodup_iff.mpr (List.nodup_range n)
  have hmemiff : ∀ v, v ∈ σ ↔ v < n := fun v => by rw [hperm.mem_iff, List.mem_range]
  have hidxlt : ∀ v, v < n → σ.indexOf v < σ.length := fun v hv =>
    List.indexOf_lt_length.mpr ((hmemiff v).mpr hv)
  have hgetidx : ∀ v, v < n → ∀ d : ℕ, σ.getD (σ.indexOf v) d = v := by
    intro v h d
    rw [getD_of_lt _ _ (hidxlt v h)]
    exact List.getElem_indexOf (hidxlt v h)
  have hτnd : ((List.range n).map (fun v => σ.indexOf v)).Nodup := by
    apply List.Nodup.map_on ?_ (List.nodup_range n)
    intro u hu v hv huv
    rw [List.mem_range] at hu hv
    have h1 := hgetidx u hu 0
    have h2 := hgetidx v hv 0
    rw [← h1, ← h2, huv]
  have hτlt : ∀ w ∈ (List.range n).map (fun v => σ.indexOf v), w < n := by
    intro w hw
    obtain ⟨v, hv, rfl⟩ := List.mem_map.mp hw
    rw [List.mem_range] at hv
    exact hlen ▸ hidxlt v hv
  have hτperm : ((List.range n).map (fun v => σ.indexOf v)).Perm (List.range n) :=
    perm_range_of_nodup_lt (by simp) hτnd hτlt
  have hτsorted : ((List.range n).map (fun v => σ.indexOf v)).Sorted (argsortRel σ default) := by
    rw [List.Sorted, List.pairwise_map]
    apply List.Pairwise.imp_of_mem ?_ (List.pairwise_lt_range n)
    intro u v hu hv huv
    rw [List.mem_range] at hu hv
    left
    rw [hgetidx u hu default, hgetidx v hv default]
    exact huv
  haveI : IsAntisymm ℕ (argsortRel σ default) := ⟨argsortRel_antisymm σ default⟩
  refine List.eq_of_perm_of_sorted ?_ (argsort_sorted σ) hτsorted
  exact (hlen ▸ argsort_perm σ).trans hτperm.symm

theorem get_ranks_eq_map_indexOf (a : List ℚ) :
    get_ranks a = (List.range a.length).map (fun v => (argsort a).indexOf v) :=
  argsort_of_perm_range (argsort_perm a)

theorem get_ranks_perm (a : List ℚ) :
    (get_ranks a).Perm (List.range a.length) := by
  have h := argsort_perm (argsort a)
  rw [argsort_length] at h
  exact h

theorem get_ranks_getD (a : List ℚ) {i : ℕ} (hi : i < a.length) :
    (get_ranks a).getD i 0 = (argsort a).indexOf i := by
  rw [get_ranks_eq_map_indexOf, getD_of_lt _ _ (by simpa using hi)]
  simp

/-- Ranks strictly respect strict comparisons of the underlying values (no
distinctness needed in this direction). -/
theorem get_ranks_lt_of_lt (a : List ℚ) {i j : ℕ} (hi : i < a.length)
    (hj : j < a.length) (hij : a.getD i 0 < a.getD j 0) :
    (get_ranks a).getD i 0 < (get_ranks a).getD j 0 := by
  rw [get_ranks_getD a hi, get_ranks_getD a hj]
  have hlen := argsort_length a
  have hperm := argsort_perm a
  have hd : (default : ℚ) = 0 := rfl
  have hmi : i ∈ argsort a := hperm.mem_iff.mpr (List.mem_range.mpr hi)
  have hmj : j ∈ argsort a := hperm.mem_iff.mpr (List.mem_range.mpr hj)
  have hii := List.indexOf_lt_length.mpr hmi
  have hjj := List.indexOf_lt_length.mpr hmj
  have hgi : (argsort a)[(argsort a).indexOf i] = i := List.getElem_indexOf hii
  have hgj : (argsort a)[(argsort a).indexOf j] = j := List.getElem_indexOf hjj
  by_contra hc
  push_neg at hc
  rcases lt_or_eq_of_le hc with hlt | heq
  · have hpw := List.pairwise_iff_get.mp (argsort_sorted a)
      ⟨_, hjj⟩ ⟨_, hii⟩ hlt
    simp only [List.get_eq_getElem, hgi, hgj] at hpw
    rcases hpw with h | ⟨h, _⟩
    · rw [hd] at h
      exact absurd hij (not_lt.mpr (le_of_lt h))
    · rw [hd] at h
      exact absurd hij (not_lt.mpr (le_of_eq h))
  · have h1 : (argsort a)[(argsort a).indexOf j]? = some j := by
      rw [List.getElem?_eq_getElem hjj, hgj]
    have h2 : (argsort a)[(argsort a).indexOf i]? = some i := by
      rw [List.getElem?_eq_getElem hii, hgi]
    rw [heq] at h1
    have h3 : some j = some i := h1.symm.trans h2
    have : j = i := by injection h3
    subst this
    exact absurd hij (lt_irrefl _)

/-- C5: on a distinct-valued input, `get_ranks` returns a permutation of
`0..n-1` (this half holds for any input) with `rank[i] < rank[j]` exactly when
`score[i] < score[j]`. -/
theorem get_ranks_distinct_spec (a : List ℚ)
    (hdist : ∀ i, i < a.length → ∀ j, j < a.length → i ≠ j →
      a.getD i 0 ≠ a.getD j 0) :
    (get_ranks a).Perm (List.range a.length) ∧
    ∀ i, i < a.length → ∀ j, j < a.length →
      ((get_ranks a).getD i 0 < (get_ranks a).getD j 0 ↔ a.getD i 0 < a.getD j 0) := by
  refine ⟨get_ranks_perm a, ?_⟩
  intro i hi j hj
  constructor
  · intro hr
    rcases lt_trichotomy (a.getD i 0) (a.getD j 0) with h | h | h
    · exact h
    · rcases eq_or_ne i j with rfl | hne
      · exact absurd hr (lt_irrefl _)
      · exact absurd h (hdist i hi j hj hne)
    · exact absurd hr (not_lt.mpr (le_of_lt (get_ranks_lt_of_lt a hj hi h)))
  · exact get_ranks_lt_of_lt a hi hj

/-- Witness for C5 at the distinct-valued input `[3, 1, 2]` (ranks
`[2, 0, 1]`). -/
theorem get_ranks_distinct_spec_witness :
    (∀ i, i < ([(3:ℚ), 1, 2] : List ℚ).length → ∀ j, j < ([(3:ℚ), 1, 2] : List ℚ).length →
      i ≠ j → ([(3:ℚ), 1, 2] : List ℚ).getD i 0 ≠ ([(3:ℚ), 1, 2] : List ℚ).getD j 0) ∧
    (get_ranks [3, 1, 2]).Perm (List.range 3) ∧
    ∀ i, i < ([(3:ℚ), 1, 2] : List ℚ).length → ∀ j, j < ([(3:ℚ), 1, 2] : List ℚ).length →
      ((get_ranks [3, 1, 2]).getD i 0 < (get_ranks [3, 1, 2]).getD j 0 ↔
        ([(3:ℚ), 1, 2] : List ℚ).getD i 0 < ([(3:ℚ), 1, 2] : List ℚ).getD j 0) :=
  ⟨by decide, get_ranks_distinct_spec [3, 1, 2] (by decide)⟩

/-! ### C6: MCC value theory -/

theorem mccLe_refl (u : MCCVal) : MCCVal.le u u := by
  rcases le_or_lt u.num 0 with h | h
  · exact Or.inr (Or.inr ⟨h, h, le_refl _⟩)
  · exact Or.inr (Or.inl ⟨le_of_lt h, le_of_lt h, le_refl _⟩)

theorem mccLe_total (u v : MCCVal) : MCCVal.le u v ∨ MCCVal.le v u := by
  rcases le_or_lt u.num 0 with hu | hu <;> rcases le_or_lt v.num 0 with hv | hv
  · rcases le_total (v.num ^ 2 * (u.radicand : ℤ)) (u.num ^ 2 * (v.radicand : ℤ)) with h | h
    · exact Or.inl (Or.inr (Or.inr ⟨hu, hv, h⟩))
    · exact Or.inr (Or.inr (Or.inr ⟨hv, hu, h⟩))
  · exact Or.inl (Or.inl ⟨hu, le_of_lt hv⟩)
  · exact Or.inr (Or.inl ⟨hv, le_of_lt hu⟩)
  · rcases le_total (u.num ^ 2 * (v.radicand : ℤ)) (v.num ^ 2 * (u.radicand : ℤ)) with h | h
    · exact Or.inl (Or.inr (Or.inl ⟨le_of_lt hu, le_of_lt hv, h⟩))
    · exact Or.inr (Or.inr (Or.inl ⟨le_of_lt hv, le_of_lt hu, h⟩))

theorem confusion_sq_le (a b c e : ℤ) (ha : 0 ≤ a) (hb : 0 ≤ b) (hc : 0 ≤ c)
    (he : 0 ≤ e) : (a * e) ^ 2 ≤ (a + b) * (a + c) * (e + b) * (e + c) := by
  have h1 : a * e ≤ (a + b) * (e + b) := by nlinarith
  have h2 : a * e ≤ (a + c) * (e + c) := by nlinarith
  have h3 : (0:ℤ) ≤ a * e := mul_nonneg ha he
  calc (a * e) ^ 2 = (a * e) * (a * e) := sq (a * e)
    _ ≤ ((a + b) * (e + b)) * ((a + c) * (e + c)) :=
        mul_le_mul h1 h2 h3 (le_trans h3 h1)
    _ = (a + b) * (a + c) * (e + b) * (e + c) := by ring

theorem confusion_sq_lt (a b c e m : ℤ) (ha : 1 ≤ a) (he : 1 ≤ e) (hb : 1 ≤ b)
    (hc : 0 ≤ c) (hm1 : 1 ≤ m) (hm2 : m ≤ a * e) :
    m ^ 2 < (a + b) * (a + c) * (e + b) * (e + c) := by
  have h1 : a * e < (a + b) * (e + b) := by nlinarith
  have h2 : a * e ≤ (a + c) * (e + c) := by nlinarith
  have h3 : (0:ℤ) < a * e := by nlinarith
  calc m ^ 2 ≤ (a * e) * (a * e) := by nlinarith
    _ < ((a + b) * (e + b)) * ((a + c) * (e + c)) :=
        mul_lt_mul h1 h2 h3 (by nlinarith)
    _ = (a + b) * (a + c) * (e + b) * (e + c) := by ring

theorem mccOf_radicand_ne_zero (tp fp fn tn : ℕ) :
    (mccOf tp fp fn tn).radicand ≠ 0 := by
  unfold mccOf
  dsimp only
  split
  · simp
  next h => simpa using h

theorem mccOf_le_one (tp fp fn tn : ℕ) : MCCVal.le (mccOf tp fp fn tn) ⟨1, 1⟩ := by
  unfold mccOf
  dsimp only
  split
  · exact Or.inl (by simp)
  next hd =>
    set m : ℤ := (tp : ℤ) * (tn : ℤ) - (fp : ℤ) * (fn : ℤ) with hm
    rcases le_or_lt m 0 with hle | hpos
    · exact Or.inl (by simpa using hle)
    · refine Or.inr (Or.inl ⟨by simpa using le_of_lt hpos, by norm_num, ?_⟩)
      have hb := confusion_sq_le (tp : ℤ) (fp : ℤ) (fn : ℤ) (tn : ℤ)
        (by positivity) (by positivity) (by positivity) (by positivity)
      have hmle : m ≤ (tp : ℤ) * (tn : ℤ) := by
        have : (0:ℤ) ≤ (fp : ℤ) * (fn : ℤ) := by positivity
        omega
      have hsq : m ^ 2 ≤ ((tp : ℤ) * (tn : ℤ)) ^ 2 := by nlinarith
      simp only [MCCVal.radicand]
      push_cast
      nlinarith

theorem mccOf_not_isOne_of_miss (tp fp fn tn : ℕ) (h : 1 ≤ fp ∨ 1 ≤ fn) :
    ¬ (mccOf tp fp fn tn).isOne := by
  unfold mccOf
  dsimp only
  split
  · intro hone
    obtain ⟨_, h2, _⟩ := hone
    simp at h2
  next hd =>
    intro hone
    obtain ⟨h1, h2, h3⟩ := hone
    simp only [MCCVal.num, MCCVal.radicand] at h1 h2 h3
    set m : ℤ := (tp : ℤ) * (tn : ℤ) - (fp : ℤ) * (fn : ℤ) with hm
    have hm1 : 1 ≤ m := by
      rcases lt_or_eq_of_le h1 with hp | hz
      · omega
      · exfalso
        rw [← hz] at h2
        have hd0 : ((tp + fp) * (tp + fn) * (tn + fp) * (tn + fn) : ℤ) = 0 := by
          simpa using h2.symm
        exact h3 (by exact_mod_cast hd0)
    have htp : 1 ≤ tp ∧ 1 ≤ tn := by
      by_contra hc
      have h0 : tp = 0 ∨ tn = 0 := by omega
      have hz : (tp : ℤ) * (tn : ℤ) = 0 := by
        rcases h0 with h0 | h0 <;> simp [h0]
      have hfpfn : (0:ℤ) ≤ (fp : ℤ) * (fn : ℤ) := by positivity
      omega
    have hmle : m ≤ (tp : ℤ) * (tn : ℤ) := by
      have : (0:ℤ) ≤ (fp : ℤ) * (fn : ℤ) := by positivity
      omega
    have hlt : m ^ 2 < ((tp : ℤ) + fp) * ((tp : ℤ) + fn) * ((tn : ℤ) + fp) * ((tn : ℤ) + fn) := by
      rcases h with hfp | hfn
      · exact confusion_sq_lt (tp : ℤ) (fp : ℤ) (fn : ℤ) (tn : ℤ) m
          (by exact_mod_cast htp.1) (by exact_mod_cast htp.2)
          (by exact_mod_cast hfp) (by positivity) hm1 hmle
      · have := confusion_sq_lt (tp : ℤ) (fn : ℤ) (fp : ℤ) (tn : ℤ) m
          (by exact_mod_cast htp.1) (by exact_mod_cast htp.2)
          (by exact_mod_cast hfn) (by positivity) hm1 hmle
        calc m ^ 2 < ((tp : ℤ) + fn) * ((tp : ℤ) + fp) * ((tn : ℤ) + fn) * ((tn : ℤ) + fp) := this
          _ = ((tp : ℤ) + fp) * ((tp : ℤ) + fn) * ((tn : ℤ) + fp) * ((tn : ℤ) + fn) := by ring
    rw [h2] at hlt
    push_cast at hlt
    exact absurd hlt (lt_irrefl _)

theorem mccOf_isOne_perfect (tp tn : ℕ) (htp : 1 ≤ tp) (htn : 1 ≤ tn) :
    (mccOf tp 0 0 tn).isOne := by
  unfold mccOf
  dsimp only
  have hdpos : 0 < (tp + 0) * (tp + 0) * (tn + 0) * (tn + 0) :=
    Nat.mul_pos (Nat.mul_pos (Nat.mul_pos (by omega) (by omega)) (by omega)) (by omega)
  rw [if_neg (Nat.pos_iff_ne_zero.mp hdpos)]
  refine ⟨?_, ?_, Nat.pos_iff_ne_zero.mp hdpos⟩
  · have h0 : (0:ℤ) ≤ (tp:ℤ) * (tn:ℤ) := by positivity
    push_cast
    linarith
  · push_cast
    ring

theorem mccMax_eq_or (u v : MCCVal) : mccMax u v = u ∨ mccMax u v = v := by
  unfold mccMax
  split
  · exact Or.inr rfl
  · exact Or.inl rfl

theorem foldl_mccMax_mem : ∀ (vs : List MCCVal) (v : MCCVal),
    vs.foldl mccMax v = v ∨ vs.foldl mccMax v ∈ vs := by
  intro vs
  induction vs with
  | nil => intro v; exact Or.inl rfl
  | cons w vs ih =>
    intro v
    rw [List.foldl_cons]
    rcases ih (mccMax v w) with h | h
    · rw [h]
      rcases mccMax_eq_or v w with h2 | h2
      · exact Or.inl h2
      · rw [h2]
        exact Or.inr (List.mem_cons_self _ _)
    · exact Or.inr (List.mem_cons_of_mem _ h)

theorem isOne_num_pos {u : MCCVal} (hu : u.isOne) : 1 ≤ u.num := by
  obtain ⟨h1, h2, h3⟩ := hu
  rcases lt_or_eq_of_le h1 with h | h
  · omega
  · exfalso
    rw [← h] at h2
    have : (u.radicand : ℤ) = 0 := by simpa using h2.symm
    exact h3 (by exact_mod_cast this)

theorem isOne_of_le {u w : MCCVal} (hu : u.isOne) (huw : MCCVal.le u w)
    (hw1 : MCCVal.le w ⟨1, 1⟩) (hwr : w.radicand ≠ 0) : w.isOne := by
  have hun : 1 ≤ u.num := isOne_num_pos hu
  obtain ⟨hu1, hu2, hu3⟩ := hu
  rcases huw with ⟨h1, _⟩ | ⟨h1, h2, h3⟩ | ⟨h1, _⟩
  · omega
  · rw [hu2] at h3
    have hur : (0:ℤ) < (u.radicand : ℤ) := by exact_mod_cast Nat.pos_of_ne_zero hu3
    rw [mul_comm] at h3
    have hwle : (w.radicand : ℤ) ≤ w.num ^ 2 := le_of_mul_le_mul_right h3 hur
    rcases hw1 with ⟨hw, _⟩ | ⟨hw, _, hsq⟩ | ⟨_, hone, _⟩
    · have hwn0 : w.num = 0 := le_antisymm hw h2
      rw [hwn0] at hwle
      simp at hwle
      exact absurd hwle hwr
    · have hle2 : w.num ^ 2 ≤ (w.radicand : ℤ) := by simpa using hsq
      exact ⟨h2, le_antisymm hle2 hwle, hwr⟩
    · simp at hone
  · omega

theorem mccMax_isOne {u v : MCCVal} (hu1 : MCCVal.le u ⟨1, 1⟩)
    (hv1 : MCCVal.le v ⟨1, 1⟩) (hur : u.radicand ≠ 0) (hvr : v.radicand ≠ 0)
    (h : u.isOne ∨ v.isOne) : (mccMax u v).isOne := by
  unfold mccMax
  split
  next hle =>
    rcases h with h | h
    · exact isOne_of_le h hle hv1 hvr
    · exact h
  next hle =>
    rcases h with h | h
    · exact h
    · rcases mccLe_total u v with ht | ht
      · exact absurd ht hle
      · exact isOne_of_le h ht hu1 hur

theorem foldl_mccMax_isOne : ∀ (l : List MCCVal) (acc : MCCVal),
    (MCCVal.le acc ⟨1, 1⟩ ∧ acc.radicand ≠ 0) →
    (∀ v ∈ l, MCCVal.le v ⟨1, 1⟩ ∧ v.radicand ≠ 0) →
    (acc.isOne ∨ ∃ u ∈ l, u.isOne) →
    (l.foldl mccMax acc).isOne := by
  intro l
  induction l with
  | nil =>
    intro acc _ _ hone
    rcases hone with h | ⟨u, hu, _⟩
    · exact h
    · simp at hu
  | cons w vs ih =>
    intro acc hacc hall hone
    rw [List.foldl_cons]
    have hw := hall w (by simp)
    have hmr : (mccMax acc w).radicand ≠ 0 := by
      rcases mccMax_eq_or acc w with h | h <;> rw [h]
      · exact hacc.2
      · exact hw.2
    have hm1 : MCCVal.le (mccMax acc w) ⟨1, 1⟩ := by
      rcases mccMax_eq_or acc w with h | h <;> rw [h]
      · exact hacc.1
      · exact hw.1
    apply ih (mccMax acc w) ⟨hm1, hmr⟩ (fun v hv => hall v (by simp [hv]))
    rcases hone with h | ⟨u, hu, huo⟩
    · exact Or.inl (mccMax_isOne hacc.1 hw.1 hacc.2 hw.2 (Or.inl h))
    · rcases List.mem_cons.mp hu with rfl | hu
      · exact Or.inl (mccMax_isOne hacc.1 hw.1 hacc.2 hw.2 (Or.inr huo))
      · exact Or.inr ⟨u, hu, huo⟩

theorem npMaxMCC_not_isOne {l : List MCCVal} (hne : l ≠ [])
    (h : ∀ v ∈ l, ¬ v.isOne) : ¬ (npMaxMCC l).isOne := by
  cases l with
  | nil => exact absurd rfl hne
  | cons v vs =>
    unfold npMaxMCC
    dsimp only
    rcases foldl_mccMax_mem vs v with hm | hm
    · rw [hm]
      exact h v (by simp)
    · exact h _ (List.mem_cons_of_mem _ hm)

theorem npMaxMCC_isOne {l : List MCCVal}
    (hall : ∀ v ∈ l, MCCVal.le v ⟨1, 1⟩ ∧ v.radicand ≠ 0)
    (hone : ∃ u ∈ l, u.isOne) : (npMaxMCC l).isOne := by
  cases l with
  | nil =>
    obtain ⟨u, hu, _⟩ := hone
    simp at hu
  | cons v vs =>
    unfold npMaxMCC
    dsimp only
    apply foldl_mccMax_isOne vs v (hall v (by simp))
      (fun u hu => hall u (by simp [hu]))
    obtain ⟨u, hu, huo⟩ := hone
    rcases List.mem_cons.mp hu with rfl | hu
    · exact Or.inl huo
    · exact Or.inr ⟨u, hu, huo⟩

theorem get_ranks_length (a : List ℚ) : (get_ranks a).length = a.length := by
  simpa using (get_ranks_perm a).length_eq

theorem matthews_corrcoef_eq_mccOf (y : List ℚ) (p : List Bool) :
    matthews_corrcoef y p = mccOf
      ((y.zip p).countP (fun z => decide (z.1 = 1) && z.2))
      ((y.zip p).countP (fun z => decide (z.1 = 0) && z.2))
      ((y.zip p).countP (fun z => decide (z.1 = 1) && !z.2))
      ((y.zip p).countP (fun z => decide (z.1 = 0) && !z.2)) := rfl

theorem matthews_not_isOne_of_miss (y : List ℚ) (p : List Bool)
    (h : (∃ z ∈ y.zip p, z.1 = 0 ∧ z.2 = true) ∨
         (∃ z ∈ y.zip p, z.1 = 1 ∧ z.2 = false)) :
    ¬ (matthews_corrcoef y p).isOne := by
  rw [matthews_corrcoef_eq_mccOf]
  apply mccOf_not_isOne_of_miss
  rcases h with ⟨z, hz, h1, h2⟩ | ⟨z, hz, h1, h2⟩
  · left
    have : 0 < (y.zip p).countP (fun z => decide (z.1 = 0) && z.2) :=
      List.countP_pos_iff.mpr ⟨z, hz, by simp [h1, h2]⟩
    omega
  · right
    have : 0 < (y.zip p).countP (fun z => decide (z.1 = 1) && !z.2) :=
      List.countP_pos_iff.mpr ⟨z, hz, by simp [h1, h2]⟩
    omega

theorem matthews_isOne_of_agree (y : List ℚ) (p : List Bool)
    (hagree : ∀ z ∈ y.zip p, (z.1 = 1 → z.2 = true) ∧ (z.1 = 0 → z.2 = false))
    (hpos : ∃ z ∈ y.zip p, z.1 = 1 ∧ z.2 = true)
    (hneg : ∃ z ∈ y.zip p, z.1 = 0 ∧ z.2 = false) :
    (matthews_corrcoef y p).isOne := by
  rw [matthews_corrcoef_eq_mccOf]
  have hfp : (y.zip p).countP (fun z => decide (z.1 = 0) && z.2) = 0 := by
    rw [List.countP_eq_zero]
    intro z hz
    simp only [Bool.and_eq_true, decide_eq_true_eq, not_and]
    intro h0
    have := (hagree z hz).2 h0
    rw [this]
    simp
  have hfn : (y.zip p).countP (fun z => decide (z.1 = 1) && !z.2) = 0 := by
    rw [List.countP_eq_zero]
    intro z hz
    simp only [Bool.and_eq_true, decide_eq_true_eq, not_and]
    intro h1
    have := (hagree z hz).1 h1
    rw [this]
    simp
  have htp : 1 ≤ (y.zip p).countP (fun z => decide (z.1 = 1) && z.2) := by
    obtain ⟨z, hz, h1, h2⟩ := hpos
    have : 0 < (y.zip p).countP (fun z => decide (z.1 = 1) && z.2) :=
      List.countP_pos_iff.mpr ⟨z, hz, by simp [h1, h2]⟩
    omega
  have htn : 1 ≤ (y.zip p).countP (fun z => decide (z.1 = 0) && !z.2) := by
    obtain ⟨z, hz, h1, h2⟩ := hneg
    have : 0 < (y.zip p).countP (fun z => decide (z.1 = 0) && !z.2) :=
      List.countP_pos_iff.mpr ⟨z, hz, by simp [h1, h2]⟩
    omega
  rw [hfp, hfn]
  exact mccOf_isOne_perfect _ _ htp htn

theorem sorted_argsortRel_range {α : Type} [LinearOrder α] [Inhabited α] (a : List α)
    (hmono : ∀ i j, i < j → j < a.length → a.getD i default ≤ a.getD j default) :
    (List.range a.length).Sorted (argsortRel a default) := by
  apply List.Pairwise.imp_of_mem ?_ (List.pairwise_lt_range _)
  intro i j hi hj hij
  rw [List.mem_range] at hi hj
  rcases lt_or_eq_of_le (hmono i j hij hj) with h | h
  · exact Or.inl h
  · exact Or.inr ⟨h, le_of_lt hij⟩

theorem argsort_of_sorted {α : Type} [LinearOrder α] [Inhabited α] (a : List α)
    (hmono : ∀ i j, i < j → j < a.length → a.getD i default ≤ a.getD j default) :
    argsort a = List.range a.length := by
  unfold argsort
  exact List.Sorted.insertionSort_eq (sorted_argsortRel_range a hmono)

/-- C6 amended: `compute_MCC` sweeps `threshold_num` evenly spaced thresholds
over `[min(rank)-1, max(rank)+1]`, binarising by `rank > threshold`, and
returns the maximal Matthews correlation; for perfectly separable labels and
scores the returned maximum equals 1 *provided* the threshold grid contains a
separating value `t` (every negative's rank ≤ t < every positive's rank).
The grid, which has fixed resolution, need not contain such a value for large
inputs — see the counterexample theorem. -/
theorem compute_MCC_perfect_separation (y_true y_score : List ℚ) (tnum : ℕ)
    (hlen : y_true.length = y_score.length)
    (_hlab : ∀ l ∈ y_true, l = 0 ∨ l = 1)
    (_hsep : ∀ i, i < y_true.length → ∀ j, j < y_true.length →
      y_true.getD i 0 = 0 → y_true.getD j 0 = 1 →
      y_score.getD i 0 < y_score.getD j 0)
    (hpos : ∃ i, i < y_true.length ∧ y_true.getD i 0 = 1)
    (hneg : ∃ i, i < y_true.length ∧ y_true.getD i 0 = 0)
    (hgrid : ∃ t ∈ linspace ((npMinNat (get_ranks y_score) : ℚ) - 1)
        ((npMaxNat (get_ranks y_score) : ℚ) + 1) tnum,
      ∀ i, i < y_true.length →
        (y_true.getD i 0 = 0 → ((get_ranks y_score).getD i 0 : ℚ) ≤ t) ∧
        (y_true.getD i 0 = 1 → t < ((get_ranks y_score).getD i 0 : ℚ))) :
    (compute_MCC y_true y_score tnum).isOne := by
  obtain ⟨t, htmem, hts⟩ := hgrid
  unfold compute_MCC
  dsimp only
  apply npMaxMCC_isOne
  · intro v hv
    obtain ⟨t2, _, rfl⟩ := List.mem_map.mp hv
    rw [matthews_corrcoef_eq_mccOf]
    exact ⟨mccOf_le_one _ _ _ _, mccOf_radicand_ne_zero _ _ _ _⟩
  · refine ⟨_, List.mem_map_of_mem _ htmem, ?_⟩
    set preds := (get_ranks y_score).map (fun (r : ℕ) => decide (t < (r : ℚ))) with hpreds
    have hrl : (get_ranks y_score).length = y_true.length := by
      rw [get_ranks_length]
      omega
    have hpl : preds.length = y_true.length := by
      rw [hpreds, List.length_map, hrl]
    have hzl : (y_true.zip preds).length = y_true.length := by
      rw [List.length_zip, hpl, Nat.min_self]
    have hz_get : ∀ i, ∀ (hi : i < y_true.length),
        ∀ (hiz : i < (y_true.zip preds).length),
        (y_true.zip preds)[i] =
          (y_true[i], decide (t < ((get_ranks y_score).getD i 0 : ℚ))) := by
      intro i hi hiz
      rw [List.getElem_zip]
      have hri : i < (get_ranks y_score).length := by rw [hrl]; exact hi
      congr 1
      simp only [hpreds, List.getElem_map]
      rw [getD_of_lt _ _ hri]
    apply matthews_isOne_of_agree
    · intro z hz
      obtain ⟨i, hiz, rfl⟩ := List.mem_iff_getElem.mp hz
      have hi : i < y_true.length := by rw [hzl] at hiz; exact hiz
      rw [hz_get i hi hiz]
      constructor
      · intro h1
        simp only [decide_eq_true_eq]
        exact (hts i hi).2 (by rw [getD_of_lt _ _ hi]; exact h1)
      · intro h0
        simp only [decide_eq_false_iff_not]
        exact not_lt.mpr ((hts i hi).1 (by rw [getD_of_lt _ _ hi]; exact h0))
    · obtain ⟨i, hi, h1⟩ := hpos
      have hiz : i < (y_true.zip preds).length := by rw [hzl]; exact hi
      refine ⟨(y_true.zip preds)[i], List.getElem_mem hiz, ?_⟩
      rw [hz_get i hi hiz]
      refine ⟨?_, ?_⟩
      · rw [getD_of_lt _ _ hi] at h1
        exact h1
      · simp only [decide_eq_true_eq]
        exact (hts i hi).2 h1
    · obtain ⟨i, hi, h0⟩ := hneg
      have hiz : i < (y_true.zip preds).length := by rw [hzl]; exact hi
      refine ⟨(y_true.zip preds)[i], List.getElem_mem hiz, ?_⟩
      rw [hz_get i hi hiz]
      refine ⟨?_, ?_⟩
      · rw [getD_of_lt _ _ hi] at h0
        exact h0
      · simp only [decide_eq_false_iff_not]
        exact not_lt.mpr ((hts i hi).1 h0)

theorem bigL_length : (List.replicate 499 (0:ℚ) ++ List.replicate 499 1).length = 998 := by
  rw [List.length_append, List.length_replicate, List.length_replicate]

theorem bigL_getD (i : ℕ) (hi : i < 998) :
    (List.replicate 499 (0:ℚ) ++ List.replicate 499 1).getD i 0 =
      if i < 499 then 0 else 1 := by
  rw [getD_of_lt _ _ (by rw [bigL_length]; omega)]
  rcases Nat.lt_or_ge i 499 with h | h
  · rw [if_pos h]
    rw [List.getElem_append_left (by rw [List.length_replicate]; exact h)]
    rw [List.getElem_replicate]
  · rw [if_neg (by omega)]
    rw [List.getElem_append_right (by rw [List.length_replicate]; exact h)]
    rw [List.getElem_replicate]

theorem bigL_ranks :
    get_ranks (List.replicate 499 (0:ℚ) ++ List.replicate 499 1) = List.range 998 := by
  have h1 : argsort (List.replicate 499 (0:ℚ) ++ List.replicate 499 1) =
      List.range 998 := by
    have hm : ∀ i j, i < j →
        j < (List.replicate 499 (0:ℚ) ++ List.replicate 499 1).length →
        (List.replicate 499 (0:ℚ) ++ List.replicate 499 1).getD i default ≤
          (List.replicate 499 (0:ℚ) ++ List.replicate 499 1).getD j default := by
      intro i j hij hj
      rw [bigL_length] at hj
      have hd : (default : ℚ) = 0 := rfl
      rw [hd, bigL_getD i (by omega), bigL_getD j hj]
      rcases Nat.lt_or_ge i 499 with h | h <;> rcases Nat.lt_or_ge j 499 with h2 | h2
      · rw [if_pos h, if_pos h2]
      · rw [if_pos h, if_neg (by omega)]
        norm_num
      · omega
      · rw [if_neg (by omega), if_neg (by omega)]
    have h := argsort_of_sorted _ hm
    rwa [bigL_length] at h
  have h2 : argsort (List.range 998) = List.range 998 := by
    have hm : ∀ i j, i < j → j < (List.range 998).length →
        (List.range 998).getD i default ≤ (List.range 998).getD j default := by
      intro i j hij hj
      rw [List.length_range] at hj
      rw [getD_of_lt _ _ (by rw [List.length_range]; omega),
        getD_of_lt _ _ (by rw [List.length_range]; exact hj)]
      simp only [List.getElem_range]
      omega
    have h := argsort_of_sorted _ hm
    rwa [List.length_range] at h
  unfold get_ranks
  rw [h1, h2]

theorem foldl_min_zero : ∀ (l : List ℕ), l.foldl min 0 = 0 := by
  intro l
  induction l with
  | nil => rfl
  | cons v vs ih =>
    rw [List.foldl_cons, Nat.zero_min]
    exact ih

theorem foldl_max_spec : ∀ (l : List ℕ) (acc : ℕ),
    (l.foldl max acc = acc ∨ l.foldl max acc ∈ l) ∧ acc ≤ l.foldl max acc ∧
    ∀ v ∈ l, v ≤ l.foldl max acc := by
  intro l
  induction l with
  | nil => intro acc; exact ⟨Or.inl rfl, le_refl _, by simp⟩
  | cons w vs ih =>
    intro acc
    rw [List.foldl_cons]
    obtain ⟨h1, h2, h3⟩ := ih (max acc w)
    refine ⟨?_, le_trans (le_max_left _ _) h2, ?_⟩
    · rcases h1 with h | h
      · rcases max_choice acc w with hc | hc
        · rw [h, hc]
          exact Or.inl rfl
        · rw [h, hc]
          exact Or.inr (by simp)
      · exact Or.inr (List.mem_cons_of_mem _ h)
    · intro v hv
      rcases List.mem_cons.mp hv with rfl | hv
      · exact le_trans (le_max_right _ _) h2
      · exact h3 v hv

theorem npMaxNat_range_succ (m : ℕ) : npMaxNat (List.range (m + 1)) = m := by
  cases hr : List.range (m + 1) with
  | nil => exact absurd hr (by simp)
  | cons v vs =>
    show vs.foldl max v = m
    obtain ⟨h1, h2, h3⟩ := foldl_max_spec vs v
    have hmem : vs.foldl max v ∈ List.range (m + 1) := by
      rw [hr]
      rcases h1 with h | h
      · rw [h]
        exact List.mem_cons_self _ _
      · exact List.mem_cons_of_mem _ h
    have hle : vs.foldl max v ≤ m := by
      have := List.mem_range.mp hmem
      omega
    have hm_mem : m ∈ v :: vs := by
      rw [← hr]
      exact List.mem_range.mpr (by omega)
    have hge : m ≤ vs.foldl max v := by
      rcases List.mem_cons.mp hm_mem with rfl | hm
      · exact h2
      · exact h3 _ hm
    exact le_antisymm hle hge

theorem range998_min : npMinNat (List.range 998) = 0 := by
  show npMinNat (List.range (997 + 1)) = 0
  rw [List.range_succ_eq_map]
  exact foldl_min_zero _

theorem range998_max : npMaxNat (List.range 998) = 997 := npMaxNat_range_succ 997

/-- Counterexample to C6 as stated: for the perfectly separable input with 499
negatives then 499 positives (scores equal to the labels), the 500-point
threshold grid spans `[-1, 998]` with spacing `999/499 > 1` and contains no
value in the separating window `[498, 499)`; every swept threshold
misclassifies at least one sample, so the returned maximum Matthews
correlation is not 1.  The first conjunct records that the input is perfectly
separable. -/
theorem compute_MCC_grid_misses_separator :
    (∀ i j, i < 998 → j < 998 →
      (List.replicate 499 (0:ℚ) ++ List.replicate 499 1).getD i 0 = 0 →
      (List.replicate 499 (0:ℚ) ++ List.replicate 499 1).getD j 0 = 1 →
      (List.replicate 499 (0:ℚ) ++ List.replicate 499 1).getD i 0 <
        (List.replicate 499 (0:ℚ) ++ List.replicate 499 1).getD j 0) ∧
    ¬ (compute_MCC (List.replicate 499 0 ++ List.replicate 499 1)
        (List.replicate 499 0 ++ List.replicate 499 1) 500).isOne := by
  constructor
  · intro i j _ _ h0 h1
    rw [h0, h1]
    norm_num
  · unfold compute_MCC
    dsimp only
    rw [bigL_ranks, range998_min, range998_max]
    apply npMaxMCC_not_isOne
    · apply List.ne_nil_of_length_pos
      rw [List.length_map]
      unfold linspace
      rw [if_neg (by norm_num), List.length_map, List.length_range]
      norm_num
    · intro v hv
      obtain ⟨t, ht, rfl⟩ := List.mem_map.mp hv
      simp only [linspace] at ht
      rw [if_neg (by norm_num)] at ht
      obtain ⟨k, hk, rfl⟩ := List.mem_map.mp ht
      rw [List.mem_range] at hk
      clear hv ht
      have htv : ((0:ℕ):ℚ) - 1 +
          (k:ℚ) * ((((997:ℕ):ℚ) + 1) - (((0:ℕ):ℚ) - 1)) / (((500:ℕ):ℚ) - 1) =
          -1 + (k:ℚ) * 999 / 499 := by
        push_cast
        ring
      rcases Nat.lt_or_ge k 250 with hk2 | hk2
      · apply matthews_not_isOne_of_miss
        left
        have hm498 : 498 < ((List.replicate 499 (0:ℚ) ++ List.replicate 499 1).zip
            ((List.range 998).map (fun (r : ℕ) =>
              decide (((0:ℕ):ℚ) - 1 + (k:ℚ) * ((((997:ℕ):ℚ) + 1) - (((0:ℕ):ℚ) - 1)) /
                (((500:ℕ):ℚ) - 1) < (r:ℚ))))).length := by
          rw [List.length_zip, List.length_map, List.length_range, bigL_length]
          norm_num
        refine ⟨_, List.getElem_mem hm498, ?_, ?_⟩
        · simp only [List.getElem_zip]
          rw [← getD_of_lt _ _ (by rw [bigL_length]; norm_num : (498:ℕ) < _)]
          rw [bigL_getD 498 (by norm_num)]
          norm_num
        · simp only [List.getElem_zip, List.getElem_map, List.getElem_range]
          simp only [decide_eq_true_eq]
          rw [htv]
          have hkq : (k:ℚ) ≤ 249 := by exact_mod_cast (by omega : k ≤ 249)
          have h9 : (k:ℚ) * 999 / 499 < 499 := by
            rw [div_lt_iff₀ (by norm_num : (0:ℚ) < 499)]
            linarith
          push_cast
          linarith
      · apply matthews_not_isOne_of_miss
        right
        have hm499 : 499 < ((List.replicate 499 (0:ℚ) ++ List.replicate 499 1).zip
            ((List.range 998).map (fun (r : ℕ) =>
              decide (((0:ℕ):ℚ) - 1 + (k:ℚ) * ((((997:ℕ):ℚ) + 1) - (((0:ℕ):ℚ) - 1)) /
                (((500:ℕ):ℚ) - 1) < (r:ℚ))))).length := by
          rw [List.length_zip, List.length_map, List.length_range, bigL_length]
          norm_num
        refine ⟨_, List.getElem_mem hm499, ?_, ?_⟩
        · simp only [List.getElem_zip]
          rw [← getD_of_lt _ _ (by rw [bigL_length]; norm_num : (499:ℕ) < _)]
          rw [bigL_getD 499 (by norm_num)]
          norm_num
        · simp only [List.getElem_zip, List.getElem_map, List.getElem_range]
          simp only [decide_eq_false_iff_not]
          rw [htv]
          have hkq : (250:ℚ) ≤ (k:ℚ) := by exact_mod_cast (by omega : 250 ≤ k)
          have h9 : (500:ℚ) ≤ (k:ℚ) * 999 / 499 := by
            rw [le_div_iff₀ (by norm_num : (0:ℚ) < 499)]
            linarith
          push_cast
          linarith

/-- Witness for the amended C6 at labels `[0, 1]`, scores `[0, 1]`,
`threshold_num = 500`: the grid over `[-1, 2]` contains the separating value
`-1 + 167·(3/499) = 2/499 ∈ [0, 1)`. -/
theorem compute_MCC_perfect_separation_witness :
    (∀ l ∈ [(0:ℚ), 1], l = 0 ∨ l = 1) ∧
    (compute_MCC [0, 1] [0, 1] 500).isOne :=
  ⟨by decide,
    compute_MCC_perfect_separation [0, 1] [0, 1] 500 (by decide) (by decide)
      (by decide) ⟨1, by decide, by decide⟩ ⟨0, by decide, by decide⟩
      (by decide)⟩

/-! ### C3: the weighted AUC score lies in [0, 1] -/

theorem getLastD_irrel {α : Type} {l : List α} (h : l ≠ []) (d₁ d₂ : α) :
    l.getLastD d₁ = l.getLastD d₂ := by
  cases l with
  | nil => exact absurd rfl h
  | cons a t => rw [List.getLastD_cons, List.getLastD_cons]

theorem getLastD_cons_of_ne_nil {α : Type} {t : List α} (h : t ≠ []) (a d : α) :
    (a :: t).getLastD d = t.getLastD d := by
  rw [List.getLastD_cons]
  exact getLastD_irrel h a d

theorem getLastD_mem_of_ne_nil {α : Type} {l : List α} (h : l ≠ []) (d : α) :
    l.getLastD d ∈ l := by
  cases l with
  | nil => exact absurd rfl h
  | cons a t =>
    rw [List.getLastD_cons]
    exact List.getLastD_mem_cons t a

theorem cumPoints_ne_nil : ∀ (l : List (ℚ × ℚ)) (fp tp : ℕ), l ≠ [] →
    cumPoints l fp tp ≠ [] := by
  intro l
  induction l with
  | nil => intro fp tp h; exact absurd rfl h
  | cons hd rest ih =>
    intro fp tp _
    obtain ⟨s, lab⟩ := hd
    cases rest with
    | nil =>
      rw [cumPoints]
      exact List.cons_ne_nil _ _
    | cons hd2 rest2 =>
      obtain ⟨s2, lab2⟩ := hd2
      rw [cumPoints]
      split
      · exact ih _ _ (List.cons_ne_nil _ _)
      · exact List.cons_ne_nil _ _

theorem cumPoints_getLastD : ∀ (l : List (ℚ × ℚ)) (fp tp : ℕ), l ≠ [] →
    (cumPoints l fp tp).getLastD (0, 0) =
      (fp + l.countP (fun z => !decide (z.2 = 1)),
       tp + l.countP (fun z => decide (z.2 = 1))) := by
  intro l
  induction l with
  | nil => intro fp tp h; exact absurd rfl h
  | cons hd rest ih =>
    intro fp tp _
    obtain ⟨s, lab⟩ := hd
    cases rest with
    | nil =>
      rw [cumPoints]
      by_cases hlab : lab = 1 <;>
        simp [hlab, List.countP_cons, List.countP_nil]
    | cons hd2 rest2 =>
      obtain ⟨s2, lab2⟩ := hd2
      have hrest : ((s2, lab2) :: rest2 : List (ℚ × ℚ)) ≠ [] := List.cons_ne_nil _ _
      rw [cumPoints]
      split
      · rw [ih _ _ hrest]
        by_cases hlab : lab = 1 <;>
          (simp only [hlab, List.countP_cons, if_pos, if_neg, decide_eq_true_eq,
            Prod.mk.injEq] ; simp [hlab] ; omega)
      · rw [getLastD_cons_of_ne_nil (cumPoints_ne_nil _ _ _ hrest) _ ((0, 0) : ℕ × ℕ),
          ih _ _ hrest]
        by_cases hlab : lab = 1 <;>
          (simp only [hlab, List.countP_cons, if_pos, if_neg, decide_eq_true_eq,
            Prod.mk.injEq] ; simp [hlab] ; omega)

theorem cumPoints_all_ge : ∀ (l : List (ℚ × ℚ)) (fp tp : ℕ),
    ∀ q ∈ cumPoints l fp tp, fp ≤ q.1 ∧ tp ≤ q.2 := by
  intro l
  induction l with
  | nil => intro fp tp q hq; rw [cumPoints] at hq; simp at hq
  | cons hd rest ih =>
    intro fp tp q hq
    obtain ⟨s, lab⟩ := hd
    cases rest with
    | nil =>
      rw [cumPoints] at hq
      rcases List.mem_singleton.mp hq with rfl
      constructor <;> (dsimp only; split <;> omega)
    | cons hd2 rest2 =>
      obtain ⟨s2, lab2⟩ := hd2
      rw [cumPoints] at hq
      have hstep : (fp ≤ if lab = 1 then fp else fp + 1) ∧
          (tp ≤ if lab = 1 then tp + 1 else tp) := by
        constructor <;> (split <;> omega)
      split at hq
      · have := ih _ _ q hq
        omega
      · rcases List.mem_cons.mp hq with rfl | hq2
        · exact hstep
        · have := ih _ _ q hq2
          omega

theorem cumPoints_pairwise : ∀ (l : List (ℚ × ℚ)) (fp tp : ℕ),
    (cumPoints l fp tp).Pairwise
      (fun p q : ℕ × ℕ => p.1 ≤ q.1 ∧ p.2 ≤ q.2) := by
  intro l
  induction l with
  | nil => intro fp tp; rw [cumPoints]; exact List.Pairwise.nil
  | cons hd rest ih =>
    intro fp tp
    obtain ⟨s, lab⟩ := hd
    cases rest with
    | nil =>
      rw [cumPoints]
      exact List.pairwise_singleton _ _
    | cons hd2 rest2 =>
      obtain ⟨s2, lab2⟩ := hd2
      rw [cumPoints]
      split
      · exact ih _ _
      · exact List.Pairwise.cons (fun q hq => cumPoints_all_ge _ _ _ q hq) (ih _ _)

theorem dropCorners_ne_nil : ∀ (xs : List (ℕ × ℕ)) (prev cur : ℕ × ℕ),
    dropCorners prev cur xs ≠ [] := by
  intro xs
  induction xs with
  | nil => intro prev cur; rw [dropCorners]; exact List.cons_ne_nil _ _
  | cons next rest ih =>
    intro prev cur
    rw [dropCorners]
    split
    · exact ih _ _
    · exact List.cons_ne_nil _ _

theorem dropCorners_sublist : ∀ (xs : List (ℕ × ℕ)) (prev cur : ℕ × ℕ),
    (dropCorners prev cur xs).Sublist (cur :: xs) := by
  intro xs
  induction xs with
  | nil => intro prev cur; rw [dropCorners]
  | cons next rest ih =>
    intro prev cur
    rw [dropCorners]
    split
    · exact List.Sublist.cons _ (ih _ _)
    · exact List.Sublist.cons₂ _ (ih _ _)

theorem dropCorners_getLastD : ∀ (xs : List (ℕ × ℕ)) (prev cur : ℕ × ℕ),
    (dropCorners prev cur xs).getLastD (0, 0) = (cur :: xs).getLastD (0, 0) := by
  intro xs
  induction xs with
  | nil => intro prev cur; rw [dropCorners]
  | cons next rest ih =>
    intro prev cur
    rw [dropCorners]
    split
    · rw [ih,
        getLastD_cons_of_ne_nil (List.cons_ne_nil next rest) cur ((0, 0) : ℕ × ℕ)]
    · rw [getLastD_cons_of_ne_nil (dropCorners_ne_nil rest cur next) cur
          ((0, 0) : ℕ × ℕ), ih,
        getLastD_cons_of_ne_nil (List.cons_ne_nil next rest) cur ((0, 0) : ℕ × ℕ)]

theorem dropIntermediate_sublist (l : List (ℕ × ℕ)) :
    (dropIntermediate l).Sublist l := by
  rcases l with _ | ⟨a, _ | ⟨b, _ | ⟨c, rest⟩⟩⟩
  · exact List.Sublist.refl _
  · exact List.Sublist.refl _
  · exact List.Sublist.refl _
  · exact List.Sublist.cons₂ a (dropCorners_sublist (c :: rest) a b)

theorem dropIntermediate_ne_nil {l : List (ℕ × ℕ)} (h : l ≠ []) :
    dropIntermediate l ≠ [] := by
  rcases l with _ | ⟨a, _ | ⟨b, _ | ⟨c, rest⟩⟩⟩
  · exact absurd rfl h
  · exact List.cons_ne_nil _ _
  · exact List.cons_ne_nil _ _
  · exact List.cons_ne_nil _ _

theorem dropIntermediate_getLastD {l : List (ℕ × ℕ)} (h : l ≠ []) :
    (dropIntermediate l).getLastD (0, 0) = l.getLastD (0, 0) := by
  rcases l with _ | ⟨a, _ | ⟨b, _ | ⟨c, rest⟩⟩⟩
  · exact absurd rfl h
  · rfl
  · rfl
  · show ((a :: dropCorners a b (c :: rest)).getLastD (0, 0)) = _
    rw [getLastD_cons_of_ne_nil (dropCorners_ne_nil (c :: rest) a b) a
        ((0, 0) : ℕ × ℕ),
      dropCorners_getLastD,
      getLastD_cons_of_ne_nil (List.cons_ne_nil c rest) b ((0, 0) : ℕ × ℕ),
      getLastD_cons_of_ne_nil (List.cons_ne_nil b (c :: rest)) a ((0, 0) : ℕ × ℕ),
      getLastD_cons_of_ne_nil (List.cons_ne_nil c rest) b ((0, 0) : ℕ × ℕ)]

theorem pairwise_le_getLastD : ∀ (l : List (ℕ × ℕ)),
    l.Pairwise (fun p q : ℕ × ℕ => p.1 ≤ q.1 ∧ p.2 ≤ q.2) →
    ∀ q ∈ l, q.1 ≤ (l.getLastD (0, 0)).1 ∧ q.2 ≤ (l.getLastD (0, 0)).2 := by
  intro l
  induction l with
  | nil => intro _ q hq; simp at hq
  | cons a t ih =>
    intro hpw q hq
    rcases List.pairwise_cons.mp hpw with ⟨ha, ht⟩
    cases t with
    | nil =>
      rcases List.mem_singleton.mp hq with rfl
      exact ⟨le_refl _, le_refl _⟩
    | cons b t' =>
      have htne : (b :: t' : List (ℕ × ℕ)) ≠ [] := List.cons_ne_nil _ _
      rw [getLastD_cons_of_ne_nil htne a ((0, 0) : ℕ × ℕ)]
      rcases List.mem_cons.mp hq with rfl | hq2
      · exact ha _ (getLastD_mem_of_ne_nil htne _)
      · exact ih ht q hq2

theorem sorted_countP_ge {y : List ℚ} (hs : y.Sorted (· ≤ ·)) {b : ℚ} {m : ℕ}
    (hm : m < y.length) (hb : y.getD m 0 ≤ b) :
    m + 1 ≤ y.countP (fun v => decide (v ≤ b)) := by
  have htake : ∀ a ∈ y.take (m + 1), (fun v => decide (v ≤ b)) a = true := by
    intro a ha
    obtain ⟨i, hi, rfl⟩ := List.getElem_of_mem ha
    have hi2 : i ≤ m := by
      have := List.length_take_le (m + 1) y
      omega
    have hiy : i < y.length := by omega
    rw [List.getElem_take]
    rw [getD_of_lt _ _ hm] at hb
    exact decide_eq_true (le_trans (sorted_getElem_le hs hi2 hm (by omega)) hb)
  have hlen : (y.take (m + 1)).length = m + 1 := by
    rw [List.length_take]
    omega
  calc m + 1 = (y.take (m + 1)).countP (fun v => decide (v ≤ b)) := by
        rw [List.countP_eq_length.mpr htake, hlen]
    _ ≤ y.countP (fun v => decide (v ≤ b)) :=
        (List.take_sublist _ _).countP_le _

theorem sorted_countP_lt {y : List ℚ} (hs : y.Sorted (· ≤ ·)) {b : ℚ} {i : ℕ}
    (hi : i < y.length) (hcnt : i < y.countP (fun v => decide (v ≤ b))) :
    y.getD i 0 ≤ b := by
  rw [getD_of_lt _ _ hi]
  by_contra hgt
  push_neg at hgt
  have hdrop : (y.drop i).countP (fun v => decide (v ≤ b)) = 0 := by
    rw [List.countP_eq_zero]
    intro a ha
    obtain ⟨j, hj, rfl⟩ := List.getElem_of_mem ha
    rw [List.getElem_drop]
    simp only [decide_eq_true_eq]
    intro habs
    have hij : i ≤ i + j := Nat.le_add_right _ _
    have hj2 : i + j < y.length := by
      rw [List.length_drop] at hj
      omega
    exact absurd (le_trans (sorted_getElem_le hs hij hj2 (by omega)) habs)
      (not_le.mpr hgt)
  have hsplit : y.countP (fun v => decide (v ≤ b)) =
      (y.take i).countP (fun v => decide (v ≤ b)) +
      (y.drop i).countP (fun v => decide (v ≤ b)) := by
    rw [← List.countP_append, List.take_append_drop]
  have htk : (y.take i).countP (fun v => decide (v ≤ b)) ≤ i := by
    calc (y.take i).countP (fun v => decide (v ≤ b)) ≤ (y.take i).length :=
          List.countP_le_length _
      _ ≤ i := List.length_take_le _ _
  omega

theorem lexPairRel_total : ∀ p q : ℚ × ℚ, lexPairRel p q ∨ lexPairRel q p := by
  intro p q
  rcases lt_trichotomy p.1 q.1 with h | h | h
  · exact Or.inl (Or.inl h)
  · rcases le_total p.2 q.2 with h2 | h2
    · exact Or.inl (Or.inr ⟨h, h2⟩)
    · exact Or.inr (Or.inr ⟨h.symm, h2⟩)
  · exact Or.inr (Or.inl h)

theorem lexPairRel_trans : ∀ p q r : ℚ × ℚ,
    lexPairRel p q → lexPairRel q r → lexPairRel p r := by
  intro p q r hpq hqr
  rcases hpq with h1 | ⟨h1, h1'⟩ <;> rcases hqr with h2 | ⟨h2, h2'⟩
  · exact Or.inl (lt_trans h1 h2)
  · exact Or.inl (h2 ▸ h1)
  · exact Or.inl (h1 ▸ h2)
  · exact Or.inr ⟨h1.trans h2, le_trans h1' h2'⟩

theorem trapz_nonneg_le (h : ℚ) (_hh : 0 ≤ h) : ∀ (l : List (ℚ × ℚ)),
    l.Pairwise (fun p q : ℚ × ℚ => p.1 ≤ q.1) →
    (∀ p ∈ l, 0 ≤ p.2 ∧ p.2 ≤ h) →
    0 ≤ trapz l ∧
      trapz l ≤ h * ((l.getLastD (0, 0)).1 - (l.headD (0, 0)).1) := by
  intro l
  induction l with
  | nil =>
    intro _ _
    simp [trapz]
  | cons p rest ih =>
    intro hpw hbd
    rcases List.pairwise_cons.mp hpw with ⟨hple, hpw2⟩
    cases rest with
    | nil => simp [trapz]
    | cons q rest2 =>
      obtain ⟨ih0, ih1⟩ := ih hpw2 (fun r hr => hbd r (List.mem_cons_of_mem p hr))
      have hpq : p.1 ≤ q.1 := hple q (List.mem_cons_self q rest2)
      obtain ⟨hp0, hph⟩ := hbd p (List.mem_cons_self p _)
      obtain ⟨hq0, hqh⟩ := hbd q (List.mem_cons_of_mem p (List.mem_cons_self q _))
      have hterm0 : 0 ≤ (q.1 - p.1) * (p.2 + q.2) / 2 :=
        div_nonneg (mul_nonneg (sub_nonneg.mpr hpq) (add_nonneg hp0 hq0))
          (by norm_num)
      have hterm1 : (q.1 - p.1) * (p.2 + q.2) / 2 ≤ h * (q.1 - p.1) := by
        rw [div_le_iff₀ (by norm_num : (0:ℚ) < 2)]
        nlinarith
      have hlast : ((p :: q :: rest2).getLastD (0, 0)) =
          ((q :: rest2).getLastD (0, 0)) :=
        getLastD_cons_of_ne_nil (List.cons_ne_nil q rest2) p _
      have htz : trapz (p :: q :: rest2) =
          (q.1 - p.1) * (p.2 + q.2) / 2 + trapz (q :: rest2) := rfl
      rw [htz, hlast]
      constructor
      · exact add_nonneg hterm0 ih0
      · have hkey : h * (q.1 - p.1) +
            h * (((q :: rest2).getLastD (0, 0)).1 - q.1) =
            h * (((q :: rest2).getLastD (0, 0)).1 - p.1) := by ring
        have : ((q :: rest2).headD (0, 0)) = q := rfl
        rw [this] at ih1
        show _ ≤ h * (((q :: rest2).getLastD (0, 0)).1 - ((p :: q :: rest2).headD (0, 0)).1)
        have hhd : ((p :: q :: rest2).headD (0, 0)) = p := rfl
        rw [hhd]
        linarith

theorem trapz_bound_01 (h : ℚ) (hh : 0 ≤ h) (l : List (ℚ × ℚ))
    (hpw : l.Pairwise (fun p q : ℚ × ℚ => p.1 ≤ q.1))
    (hmem : ∀ p ∈ l, (0 ≤ p.1 ∧ p.1 ≤ 1) ∧ (0 ≤ p.2 ∧ p.2 ≤ h)) :
    0 ≤ trapz l ∧ trapz l ≤ h := by
  obtain ⟨h0, h1⟩ := trapz_nonneg_le h hh l hpw (fun p hp => (hmem p hp).2)
  refine ⟨h0, h1.trans ?_⟩
  cases l with
  | nil => simpa using hh
  | cons p t =>
    have hhd : ((p :: t).headD (0, 0)) = p := rfl
    have hlmem : (p :: t).getLastD (0, 0) ∈ p :: t :=
      getLastD_mem_of_ne_nil (List.cons_ne_nil p t) _
    obtain ⟨⟨_, hl1⟩, _⟩ := hmem _ hlmem
    obtain ⟨⟨hp0, _⟩, _⟩ := hmem p (List.mem_cons_self p t)
    rw [hhd]
    calc h * (((p :: t).getLastD (0, 0)).1 - p.1) ≤ h * 1 := by nlinarith
      _ = h := mul_one h

theorem auc_bound {x y : List ℚ} {h : ℚ} (hh : 0 ≤ h)
    (hx : ∀ v ∈ x, 0 ≤ v ∧ v ≤ 1) (hy : ∀ v ∈ y, 0 ≤ v ∧ v ≤ h) :
    0 ≤ auc x y ∧ auc x y ≤ h := by
  unfold auc
  haveI : IsTotal (ℚ × ℚ) lexPairRel := ⟨lexPairRel_total⟩
  haveI : IsTrans (ℚ × ℚ) lexPairRel := ⟨lexPairRel_trans⟩
  have hsorted : (List.insertionSort lexPairRel (x.zip y)).Sorted lexPairRel :=
    List.sorted_insertionSort _ _
  have hpw : (List.insertionSort lexPairRel (x.zip y)).Pairwise
      (fun p q : ℚ × ℚ => p.1 ≤ q.1) := by
    apply List.Pairwise.imp _ hsorted
    intro p q hpq
    rcases hpq with h1 | ⟨h1, _⟩
    · exact le_of_lt h1
    · exact le_of_eq h1
  apply trapz_bound_01 h hh _ hpw
  intro p hp
  have hpz : p ∈ x.zip y :=
    (List.perm_insertionSort lexPairRel (x.zip y)).mem_iff.mp hp
  obtain ⟨a, b⟩ := p
  obtain ⟨hax, hby⟩ := List.of_mem_zip hpz
  exact ⟨hx a hax, hy b hby⟩

theorem sum_map_div (l : List ℚ) (c : ℚ) :
    (l.map (fun v => v / c)).sum = l.sum / c := by
  induction l with
  | nil => simp
  | cons a t ih => simp [ih, add_div]

theorem sum_zipWith_mul_bound (c : ℚ) (hc : 0 ≤ c) :
    ∀ (as ws : List ℚ), (∀ a ∈ as, 0 ≤ a ∧ a ≤ c) → (∀ v ∈ ws, 0 ≤ v) →
    0 ≤ (List.zipWith (fun a w => a * w) as ws).sum ∧
    (List.zipWith (fun a w => a * w) as ws).sum ≤ c * ws.sum := by
  intro as
  induction as with
  | nil =>
    intro ws _ hws
    simp only [List.zipWith_nil_left, List.sum_nil]
    exact ⟨le_refl 0, mul_nonneg hc (List.sum_nonneg hws)⟩
  | cons a as ih =>
    intro ws has hws
    cases ws with
    | nil =>
      simp only [List.zipWith_nil_right, List.sum_nil, List.sum_nil]
      simp
    | cons v ws' =>
      obtain ⟨ih0, ih1⟩ := ih ws' (fun a' ha' => has a' (List.mem_cons_of_mem a ha'))
        (fun v' hv' => hws v' (List.mem_cons_of_mem v hv'))
      obtain ⟨ha0, hac⟩ := has a (List.mem_cons_self a as)
      have hv0 : 0 ≤ v := hws v (List.mem_cons_self v ws')
      simp only [List.zipWith_cons_cons, List.sum_cons]
      constructor
      · exact add_nonneg (mul_nonneg ha0 hv0) ih0
      · have h1 : a * v ≤ c * v := mul_le_mul_of_nonneg_right hac hv0
        have h2 : c * v + c * ws'.sum = c * (v + ws'.sum) := by ring
        linarith

theorem bandAreas_cons (fpr tpr : List ℚ) (b : ℚ) (bs : List ℚ) (low : ℕ)
    (t0 : ℚ) (srest : List ℚ) (as' : List ℚ)
    (hcnt0 : tpr.countP (fun v => decide (v ≤ b)) ≠ 0)
    (hcons : (tpr.drop low).take (tpr.countP (fun v => decide (v ≤ b)) - 1 + 1 - low)
      = t0 :: srest)
    (hrec : bandAreas fpr tpr bs (tpr.countP (fun v => decide (v ≤ b)) - 1)
      = some as') :
    bandAreas fpr tpr (b :: bs) low = some
      (auc
        (0 :: (fpr.drop low).take (tpr.countP (fun v => decide (v ≤ b)) - 1 + 1 - low)
          ++ [1])
        (((t0 :: srest).map (fun v => v - t0)).getD 0 0 ::
          (t0 :: srest).map (fun v => v - t0) ++
          [((t0 :: srest).map (fun v => v - t0)).getLastD 0]) :: as') := by
  rw [bandAreas]
  dsimp only
  rw [if_neg hcnt0, hcons, hrec]

theorem bandAreas_spec (fpr tpr : List ℚ) (hsort : tpr.Sorted (· ≤ ·))
    (hfb : ∀ v ∈ fpr, 0 ≤ v ∧ v ≤ 1) :
    ∀ (bs : List ℚ) (low : ℕ) (prev : ℚ),
    (∀ b' ∈ bs, b' ∈ tpr) → low < tpr.length → tpr.getD low 0 = prev →
    List.Chain (· ≤ ·) prev bs →
    ∃ as, bandAreas fpr tpr bs low = some as ∧
      List.Forall₂ (fun (a : ℚ) (pb : ℚ × ℚ) => 0 ≤ a ∧ a ≤ pb.2 - pb.1) as
        ((prev :: bs).zip bs) := by
  intro bs
  induction bs with
  | nil =>
    intro low prev _ _ _ _
    exact ⟨[], rfl, by simp⟩
  | cons b bs ih =>
    intro low prev hmem hlow hprev hchain
    rcases List.chain_cons.mp hchain with ⟨hpb, hchain2⟩
    have hbmem : b ∈ tpr := hmem b (List.mem_cons_self b bs)
    have hprevle : tpr.getD low 0 ≤ b := by rw [hprev]; exact hpb
    have hcnt_ge : low + 1 ≤ tpr.countP (fun v => decide (v ≤ b)) :=
      sorted_countP_ge hsort hlow hprevle
    have hcnt_le : tpr.countP (fun v => decide (v ≤ b)) ≤ tpr.length :=
      List.countP_le_length _
    obtain ⟨m, hm, hmb⟩ := List.getElem_of_mem hbmem
    have hm_cnt : m + 1 ≤ tpr.countP (fun v => decide (v ≤ b)) :=
      sorted_countP_ge hsort hm (by rw [getD_of_lt _ _ hm, hmb])
    have hb_at_high : tpr.getD (tpr.countP (fun v => decide (v ≤ b)) - 1) 0 = b := by
      have h1 : tpr.getD (tpr.countP (fun v => decide (v ≤ b)) - 1) 0 ≤ b :=
        sorted_countP_lt hsort (by omega) (by omega)
      have h2 : b ≤ tpr.getD (tpr.countP (fun v => decide (v ≤ b)) - 1) 0 := by
        have hhl : tpr.countP (fun v => decide (v ≤ b)) - 1 < tpr.length := by omega
        have h3 : tpr[m] ≤ tpr[tpr.countP (fun v => decide (v ≤ b)) - 1] :=
          sorted_getElem_le hsort (by omega) hhl (by omega)
        rw [hmb] at h3
        rw [getD_of_lt _ _ hhl]
        exact h3
      exact le_antisymm h1 h2
    have hslice : ∀ v ∈ (tpr.drop low).take
        (tpr.countP (fun v => decide (v ≤ b)) - 1 + 1 - low),
        prev ≤ v ∧ v ≤ b := by
      intro v hv
      obtain ⟨i, hi, rfl⟩ := List.getElem_of_mem hv
      have hilt : i < tpr.countP (fun v => decide (v ≤ b)) - 1 + 1 - low := by
        have h1 := List.length_take_le
          (tpr.countP (fun v => decide (v ≤ b)) - 1 + 1 - low) (tpr.drop low)
        omega
      have hi2 : low + i < tpr.length := by
        rw [List.length_take, List.length_drop] at hi
        omega
      rw [List.getElem_take, List.getElem_drop]
      constructor
      · rw [← hprev, getD_of_lt _ _ hlow]
        exact sorted_getElem_le hsort (Nat.le_add_right _ _) hi2 hlow
      · have hhl : tpr.countP (fun v => decide (v ≤ b)) - 1 < tpr.length := by omega
        have h3 : tpr[low + i] ≤ tpr[tpr.countP (fun v => decide (v ≤ b)) - 1] :=
          sorted_getElem_le hsort (by omega) hhl (by omega)
        have h4 : tpr[tpr.countP (fun v => decide (v ≤ b)) - 1] = b :=
          (getD_of_lt _ _ hhl).symm.trans hb_at_high
        rw [h4] at h3
        exact h3
    have hlen_slice : ((tpr.drop low).take
        (tpr.countP (fun v => decide (v ≤ b)) - 1 + 1 - low)).length
        = tpr.countP (fun v => decide (v ≤ b)) - low := by
      rw [List.length_take, List.length_drop]
      omega
    obtain ⟨t0, srest, hcons⟩ : ∃ t0 srest, (tpr.drop low).take
        (tpr.countP (fun v => decide (v ≤ b)) - 1 + 1 - low) = t0 :: srest := by
      cases hsl : (tpr.drop low).take
          (tpr.countP (fun v => decide (v ≤ b)) - 1 + 1 - low) with
      | nil =>
        rw [hsl] at hlen_slice
        simp only [List.length_nil] at hlen_slice
        omega
      | cons t0 srest => exact ⟨t0, srest, rfl⟩
    have ht0 : t0 = prev := by
      have hlt0 : 0 < ((tpr.drop low).take
          (tpr.countP (fun v => decide (v ≤ b)) - 1 + 1 - low)).length := by
        omega
      have h0 : ((tpr.drop low).take
          (tpr.countP (fun v => decide (v ≤ b)) - 1 + 1 - low)).getD 0 0 = t0 := by
        rw [hcons]
        rfl
      rw [← h0, getD_of_lt _ _ hlt0, List.getElem_take, List.getElem_drop]
      simp only [Nat.add_zero]
      rw [← hprev, getD_of_lt _ _ hlow]
    obtain ⟨as', hrec, hfa'⟩ := ih (tpr.countP (fun v => decide (v ≤ b)) - 1) b
      (fun b' hb' => hmem b' (List.mem_cons_of_mem b hb')) (by omega)
      hb_at_high hchain2
    have hrt : ∀ v ∈ (t0 :: srest).map (fun v => v - t0),
        0 ≤ v ∧ v ≤ b - prev := by
      intro v hv
      obtain ⟨u, hu, rfl⟩ := List.mem_map.mp hv
      rw [← hcons] at hu
      obtain ⟨hu1, hu2⟩ := hslice u hu
      rw [ht0]
      constructor <;> linarith
    have hex : ∀ v ∈ (0 : ℚ) :: (fpr.drop low).take
        (tpr.countP (fun v => decide (v ≤ b)) - 1 + 1 - low) ++ [1],
        0 ≤ v ∧ v ≤ 1 := by
      intro v hv
      rcases List.mem_cons.mp hv with rfl | hv2
      · norm_num
      rcases List.mem_append.mp hv2 with hv3 | hv4
      · exact hfb v (List.mem_of_mem_drop (List.mem_of_mem_take hv3))
      · rcases List.mem_singleton.mp hv4 with rfl
        norm_num
    have hmapne : ((t0 :: srest).map (fun v => v - t0)) ≠ [] := by simp
    have hey : ∀ v ∈ (((t0 :: srest).map (fun v => v - t0)).getD 0 0 ::
          (t0 :: srest).map (fun v => v - t0) ++
          [((t0 :: srest).map (fun v => v - t0)).getLastD 0]),
        0 ≤ v ∧ v ≤ b - prev := by
      intro v hv
      rcases List.mem_cons.mp hv with rfl | hv2
      · refine hrt _ ?_
        rw [List.map_cons, List.getD_cons_zero]
        exact List.mem_cons_self _ _
      rcases List.mem_append.mp hv2 with hv3 | hv4
      · exact hrt v hv3
      · rcases List.mem_singleton.mp hv4 with rfl
        exact hrt _ (getLastD_mem_of_ne_nil hmapne 0)
    obtain ⟨ha0, ha1⟩ := auc_bound (sub_nonneg.mpr hpb) hex hey
    refine ⟨_ :: as',
      bandAreas_cons fpr tpr b bs low t0 srest as' (by omega) hcons hrec, ?_⟩
    rw [List.zip_cons_cons]
    exact List.Forall₂.cons ⟨ha0, ha1⟩ hfa'

theorem div_le_div_of_le_pos_right {u v c : ℚ} (huv : u ≤ v) (hc : 0 < c) :
    u / c ≤ v / c := by
  rw [div_le_div_iff₀ hc hc]
  exact mul_le_mul_of_nonneg_right huv (le_of_lt hc)

theorem sorted_head_eq_zero {l : List ℚ} (hs : l.Sorted (· ≤ ·))
    (h0 : (0 : ℚ) ∈ l) (hnn : ∀ v ∈ l, 0 ≤ v) : l.getD 0 0 = 0 := by
  obtain ⟨m, hm, hmb⟩ := List.getElem_of_mem h0
  have hlen : 0 < l.length := by omega
  rw [getD_of_lt _ _ hlen]
  have h1 : l[0] ≤ l[m] := sorted_getElem_le hs (Nat.zero_le m) hm (by omega)
  rw [hmb] at h1
  exact le_antisymm h1 (hnn _ (List.getElem_mem hlen))

theorem roc_curve_props {y_true y_score : List ℚ}
    (hlen : y_true.length = y_score.length)
    (hpos : ∃ l ∈ y_true, l = 1) (hneg : ∃ l ∈ y_true, l ≠ 1) :
    (roc_curve y_true y_score).1.length = (roc_curve y_true y_score).2.length ∧
    (roc_curve y_true y_score).2.Sorted (· ≤ ·) ∧
    (∀ v ∈ (roc_curve y_true y_score).1, 0 ≤ v ∧ v ≤ 1) ∧
    (∀ v ∈ (roc_curve y_true y_score).2, 0 ≤ v ∧ v ≤ 1) ∧
    (1 : ℚ) ∈ (roc_curve y_true y_score).2 := by
  have hytne : y_true ≠ [] := by
    obtain ⟨l, hl, _⟩ := hpos
    exact List.ne_nil_of_mem hl
  have hzlen : (y_score.zip y_true).length = y_true.length := by
    rw [List.length_zip, ← hlen, Nat.min_self]
  have hzne : y_score.zip y_true ≠ [] := by
    apply List.ne_nil_of_length_pos
    rw [hzlen]
    exact List.length_pos.mpr hytne
  have hsne : List.insertionSort descPairRel (y_score.zip y_true) ≠ [] := by
    apply List.ne_nil_of_length_pos
    rw [(List.perm_insertionSort descPairRel _).length_eq]
    exact List.length_pos.mpr hzne
  have hcne : cumPoints (List.insertionSort descPairRel (y_score.zip y_true)) 0 0
      ≠ [] := cumPoints_ne_nil _ 0 0 hsne
  have hposz : ∃ z ∈ y_score.zip y_true, z.2 = 1 := by
    obtain ⟨l, hl, hl1⟩ := hpos
    obtain ⟨i, hi, hig⟩ := List.getElem_of_mem hl
    have hiz : i < (y_score.zip y_true).length := by
      rw [hzlen]
      exact hi
    refine ⟨(y_score.zip y_true)[i], List.getElem_mem hiz, ?_⟩
    simp only [List.getElem_zip]
    rw [hig]
    exact hl1
  have hnegz : ∃ z ∈ y_score.zip y_true, z.2 ≠ 1 := by
    obtain ⟨l, hl, hl1⟩ := hneg
    obtain ⟨i, hi, hig⟩ := List.getElem_of_mem hl
    have hiz : i < (y_score.zip y_true).length := by
      rw [hzlen]
      exact hi
    refine ⟨(y_score.zip y_true)[i], List.getElem_mem hiz, ?_⟩
    simp only [List.getElem_zip]
    rw [hig]
    exact hl1
  have hP : 1 ≤ (y_score.zip y_true).countP (fun z => decide (z.2 = 1)) := by
    obtain ⟨z, hz, h1⟩ := hposz
    have hc : 0 < (y_score.zip y_true).countP (fun z => decide (z.2 = 1)) :=
      List.countP_pos_iff.mpr ⟨z, hz, by simp [h1]⟩
    omega
  have hN : 1 ≤ (y_score.zip y_true).countP (fun z => !decide (z.2 = 1)) := by
    obtain ⟨z, hz, h1⟩ := hnegz
    have hc : 0 < (y_score.zip y_true).countP (fun z => !decide (z.2 = 1)) :=
      List.countP_pos_iff.mpr ⟨z, hz, by simp [h1]⟩
    omega
  set pts0 := dropIntermediate
    (cumPoints (List.insertionSort descPairRel (y_score.zip y_true)) 0 0)
    with hpts0def
  have hpts0ne : pts0 ≠ [] := by
    rw [hpts0def]
    exact dropIntermediate_ne_nil hcne
  have hlast0 : pts0.getLastD (0, 0) =
      ((y_score.zip y_true).countP (fun z => !decide (z.2 = 1)),
       (y_score.zip y_true).countP (fun z => decide (z.2 = 1))) := by
    rw [hpts0def, dropIntermediate_getLastD hcne, cumPoints_getLastD _ 0 0 hsne,
      (List.perm_insertionSort descPairRel (y_score.zip y_true)).countP_eq,
      (List.perm_insertionSort descPairRel (y_score.zip y_true)).countP_eq]
    simp
  have hpw0 : pts0.Pairwise (fun p q : ℕ × ℕ => p.1 ≤ q.1 ∧ p.2 ≤ q.2) := by
    rw [hpts0def]
    exact List.Pairwise.sublist (dropIntermediate_sublist _)
      (cumPoints_pairwise _ 0 0)
  set pts := (if pts0 = [] ∨ (pts0.headD (0, 0)).1 ≠ 0 then (0, 0) :: pts0
    else pts0) with hptsdef
  have hptsne : pts ≠ [] := by
    rw [hptsdef]
    split
    · exact List.cons_ne_nil _ _
    · exact hpts0ne
  have hlast : pts.getLastD (0, 0) =
      ((y_score.zip y_true).countP (fun z => !decide (z.2 = 1)),
       (y_score.zip y_true).countP (fun z => decide (z.2 = 1))) := by
    rw [hptsdef]
    split
    · rw [getLastD_cons_of_ne_nil hpts0ne _ _]
      exact hlast0
    · exact hlast0
  have hpw : pts.Pairwise (fun p q : ℕ × ℕ => p.1 ≤ q.1 ∧ p.2 ≤ q.2) := by
    rw [hptsdef]
    split
    · exact List.Pairwise.cons (fun q _ => ⟨Nat.zero_le _, Nat.zero_le _⟩) hpw0
    · exact hpw0
  have hub : ∀ q ∈ pts,
      q.1 ≤ (y_score.zip y_true).countP (fun z => !decide (z.2 = 1)) ∧
      q.2 ≤ (y_score.zip y_true).countP (fun z => decide (z.2 = 1)) := by
    intro q hq
    have h := pairwise_le_getLastD pts hpw q hq
    rw [hlast] at h
    exact h
  have hNQ : (0 : ℚ) < (((y_score.zip y_true).countP
      (fun z => !decide (z.2 = 1)) : ℕ) : ℚ) := by
    exact_mod_cast hN
  have hPQ : (0 : ℚ) < (((y_score.zip y_true).countP
      (fun z => decide (z.2 = 1)) : ℕ) : ℚ) := by
    exact_mod_cast hP
  have hF : (roc_curve y_true y_score).1 =
      pts.map (fun p => (p.1 : ℚ) / (((pts.getLastD (0, 0)).1 : ℕ) : ℚ)) := rfl
  have hT : (roc_curve y_true y_score).2 =
      pts.map (fun p => (p.2 : ℚ) / (((pts.getLastD (0, 0)).2 : ℕ) : ℚ)) := rfl
  rw [hlast] at hF hT
  dsimp only at hF hT
  refine ⟨?_, ?_, ?_, ?_, ?_⟩
  · rw [hF, hT]
    simp
  · rw [hT]
    exact List.Pairwise.map _
      (fun a b hab => div_le_div_of_le_pos_right (by exact_mod_cast hab.2) hPQ)
      hpw
  · rw [hF]
    intro v hv
    obtain ⟨p, hp, rfl⟩ := List.mem_map.mp hv
    constructor
    · exact div_nonneg (by positivity) (le_of_lt hNQ)
    · rw [div_le_one hNQ]
      exact_mod_cast (hub p hp).1
  · rw [hT]
    intro v hv
    obtain ⟨p, hp, rfl⟩ := List.mem_map.mp hv
    constructor
    · exact div_nonneg (by positivity) (le_of_lt hPQ)
    · rw [div_le_one hPQ]
      exact_mod_cast (hub p hp).2
  · rw [hT]
    refine List.mem_map.mpr ⟨pts.getLastD (0, 0), getLastD_mem_of_ne_nil hptsne _, ?_⟩
    rw [hlast]
    exact div_self (ne_of_gt hPQ)

theorem linspace_zero_one (W : ℕ) (hW : 1 ≤ W) :
    linspace 0 1 (W + 1)
      = (List.range (W + 1)).map (fun (k : ℕ) => (k : ℚ) / (W : ℚ)) := by
  unfold linspace
  rw [if_neg (by omega)]
  apply List.map_congr_left
  intro k _
  push_cast
  ring

theorem getLastD_eq_getElem {α : Type} (l : List α) (d : α) (h : 0 < l.length) :
    l.getLastD d = l[l.length - 1] := by
  rw [List.getLastD_eq_getLast?, List.getLast?_eq_getElem?,
    List.getElem?_eq_getElem (by omega)]
  rfl

theorem mem_dropLast_or_getLastD {α : Type} : ∀ (l : List α) (d : α), ∀ v ∈ l,
    v ∈ l.dropLast ∨ v = l.getLastD d := by
  intro l
  induction l with
  | nil => intro d v hv; simp at hv
  | cons a t ih =>
    intro d v hv
    cases t with
    | nil =>
      rcases List.mem_singleton.mp hv with rfl
      right
      rfl
    | cons b t' =>
      rw [List.dropLast_cons₂, getLastD_cons_of_ne_nil (List.cons_ne_nil b t') a d]
      rcases List.mem_cons.mp hv with rfl | hv2
      · left
        exact List.mem_cons_self _ _
      · rcases ih d v hv2 with h | h
        · left
          exact List.mem_cons_of_mem _ h
        · right
          exact h

theorem uppersD_length (W : ℕ) :
    (((List.range (W + 1)).map
      (fun (k : ℕ) => (k : ℚ) / (W : ℚ))).drop 1).length = W := by
  simp

theorem uppersD_getElem (W : ℕ) (i : ℕ)
    (hi : i < (((List.range (W + 1)).map
      (fun (k : ℕ) => (k : ℚ) / (W : ℚ))).drop 1).length) :
    (((List.range (W + 1)).map (fun (k : ℕ) => (k : ℚ) / (W : ℚ))).drop 1)[i]
      = ((i : ℚ) + 1) / (W : ℚ) := by
  rw [List.getElem_drop, List.getElem_map, List.getElem_range]
  push_cast
  ring

theorem uppersD_chain (W : ℕ) (hW : 1 ≤ W) :
    List.Chain (· ≤ ·) 0
      (((List.range (W + 1)).map (fun (k : ℕ) => (k : ℚ) / (W : ℚ))).drop 1) := by
  rw [List.chain_iff_get]
  constructor
  · intro h
    rw [List.get_eq_getElem, uppersD_getElem]
    positivity
  · intro i h
    rw [List.get_eq_getElem, List.get_eq_getElem, uppersD_getElem, uppersD_getElem]
    apply div_le_div_of_le_pos_right
    · push_cast
      linarith
    · exact_mod_cast hW

theorem uppersD_last (W : ℕ) (hW : 1 ≤ W) :
    (((List.range (W + 1)).map
      (fun (k : ℕ) => (k : ℚ) / (W : ℚ))).drop 1).getLastD 0 = 1 := by
  have hlen : 0 < (((List.range (W + 1)).map
      (fun (k : ℕ) => (k : ℚ) / (W : ℚ))).drop 1).length := by
    rw [uppersD_length]
    omega
  rw [getLastD_eq_getElem _ _ hlen]
  simp only [uppersD_length]
  rw [uppersD_getElem]
  have hw' : W - 1 + 1 = W := by omega
  rw [← Nat.cast_add_one, hw']
  exact div_self (by exact_mod_cast (by omega : W ≠ 0))

theorem uppersD_mem_split (W : ℕ) (hW : 1 ≤ W) :
    ∀ v ∈ ((List.range (W + 1)).map (fun (k : ℕ) => (k : ℚ) / (W : ℚ))).drop 1,
      v ∈ (((List.range (W + 1)).map
        (fun (k : ℕ) => (k : ℚ) / (W : ℚ))).drop 1).dropLast ∨ v = 1 := by
  intro v hv
  rcases mem_dropLast_or_getLastD _ (0 : ℚ) v hv with h | h
  · exact Or.inl h
  · right
    rw [h]
    exact uppersD_last W hW

theorem interiorD_val (W : ℕ) (hW : 1 ≤ W) :
    ∀ v ∈ (((List.range (W + 1)).map
      (fun (k : ℕ) => (k : ℚ) / (W : ℚ))).drop 1).dropLast,
      0 < v ∧ v < 1 := by
  intro v hv
  obtain ⟨i, hi, rfl⟩ := List.getElem_of_mem hv
  have hi' : i < W - 1 := by
    rw [List.length_dropLast, uppersD_length] at hi
    exact hi
  rw [List.getElem_dropLast, uppersD_getElem]
  constructor
  · positivity
  · rw [div_lt_one (by exact_mod_cast hW : (0 : ℚ) < (W : ℚ))]
    exact_mod_cast (by omega : i + 1 < W)

theorem uppersD_pairs (W : ℕ) (_hW : 1 ≤ W) :
    ∀ p ∈ ((0 : ℚ) :: ((List.range (W + 1)).map
        (fun (k : ℕ) => (k : ℚ) / (W : ℚ))).drop 1).zip
      (((List.range (W + 1)).map (fun (k : ℕ) => (k : ℚ) / (W : ℚ))).drop 1),
      p.2 - p.1 = 1 / (W : ℚ) := by
  intro p hp
  obtain ⟨i, hi, rfl⟩ := List.getElem_of_mem hp
  have hiW : i < W := by
    rw [List.length_zip, List.length_cons, uppersD_length] at hi
    omega
  simp only [List.getElem_zip]
  cases i with
  | zero =>
    simp only [List.getElem_cons_zero]
    rw [uppersD_getElem]
    norm_num
  | succ j =>
    simp only [List.getElem_cons_succ]
    rw [uppersD_getElem, uppersD_getElem]
    rw [div_sub_div_same]
    push_cast
    ring_nf

theorem forall₂_bound {as : List ℚ} {ps : List (ℚ × ℚ)} {c : ℚ}
    (hfa : List.Forall₂ (fun (a : ℚ) (pb : ℚ × ℚ) => 0 ≤ a ∧ a ≤ pb.2 - pb.1) as ps)
    (hps : ∀ p ∈ ps, p.2 - p.1 = c) :
    ∀ a ∈ as, 0 ≤ a ∧ a ≤ c := by
  induction hfa with
  | nil => intro a ha; simp at ha
  | cons h1 h2 ih =>
    intro a ha
    rcases List.mem_cons.mp ha with rfl | ha2
    · refine ⟨h1.1, ?_⟩
      rw [← hps _ (List.mem_cons_self _ _)]
      exact h1.2
    · exact ih (fun p hp => hps p (List.mem_cons_of_mem _ hp)) a ha2

theorem interpolateOne_some_props {x y x2 y2 : List ℚ} {t : ℚ}
    (hsort : y.Sorted (· ≤ ·)) (hlen : x.length = y.length)
    (h : interpolateOne x y t = some (x2, y2)) :
    x2.length = y2.length ∧ y2.Sorted (· ≤ ·) ∧
    (∀ a ∈ y, a ∈ y2) ∧ t ∈ y2 ∧ (∀ a ∈ y2, a ∈ y ∨ a = t) ∧
    (∀ lo hi : ℚ, (∀ v ∈ x, lo ≤ v ∧ v ≤ hi) → ∀ v ∈ x2, lo ≤ v ∧ v ≤ hi) := by
  have hcond : t ∈ y ∨ ((∃ a ∈ y, a < t) ∧ (∃ b ∈ y, t < b)) := by
    by_cases hmem : t ∈ y
    · exact Or.inl hmem
    · right
      have hcz : ¬ 0 < y.count t := by
        rw [count_eq_zero_of_not_mem hmem]
        omega
      unfold interpolateOne at h
      rw [if_neg hcz] at h
      cases hmx : (argwhereLt y t).max? with
      | none =>
        rw [hmx] at h
        exact absurd h (by simp)
      | some p =>
        rw [hmx] at h
        dsimp only at h
        have hmx2 := (List.max?_eq_some_iff (le_refl) (max_choice)
          (fun _ _ _ => max_le_iff)).mp hmx
        obtain ⟨hpw, hpmax⟩ := hmx2
        obtain ⟨hp, hpt⟩ := mem_argwhereLt.mp hpw
        by_cases hguard : p + 1 < x.length ∧ p + 1 < y.length
        · have hp1y : p + 1 < y.length := hguard.2
          refine ⟨⟨y.getD p 0, ?_, hpt⟩, ⟨y.getD (p + 1) 0, ?_, ?_⟩⟩
          · rw [getD_of_lt _ _ hp]
            exact List.getElem_mem hp
          · rw [getD_of_lt _ _ hp1y]
            exact List.getElem_mem hp1y
          · have hnlt : ¬ (y.getD (p + 1) 0 < t) := by
              intro hc
              have := hpmax (p + 1) (mem_argwhereLt.mpr ⟨hp1y, hc⟩)
              omega
            have hne : y.getD (p + 1) 0 ≠ t := by
              intro hc
              apply hmem
              rw [← hc, getD_of_lt _ _ hp1y]
              exact List.getElem_mem hp1y
            rcases lt_or_eq_of_le (not_lt.mp hnlt) with h1 | h1
            · exact h1
            · exact absurd h1.symm hne
        · rw [if_neg hguard] at h
          exact absurd h (by simp)
  obtain ⟨x2', y2', heq, hl2, hs2, hm2, ht2, hsub2, hbd2⟩ :=
    interpolateOne_sorted_success hsort hlen hcond
  rw [h] at heq
  have hpair := Option.some.inj heq
  obtain ⟨e1, e2⟩ : x2 = x2' ∧ y2 = y2' :=
    ⟨congrArg Prod.fst hpair, congrArg Prod.snd hpair⟩
  subst e1
  subst e2
  exact ⟨hl2, hs2, hm2, ht2, hsub2, hbd2⟩

theorem perform_interpolation_some_props : ∀ {ts x y x2 y2 : List ℚ},
    y.Sorted (· ≤ ·) → x.length = y.length →
    perform_interpolation x y ts = some (x2, y2) →
    x2.length = y2.length ∧ y2.Sorted (· ≤ ·) ∧
    (∀ a ∈ y, a ∈ y2) ∧ (∀ t ∈ ts, t ∈ y2) ∧
    (∀ a ∈ y2, a ∈ y ∨ a ∈ ts) ∧
    (∀ lo hi : ℚ, (∀ v ∈ x, lo ≤ v ∧ v ≤ hi) → ∀ v ∈ x2, lo ≤ v ∧ v ≤ hi) := by
  intro ts
  induction ts with
  | nil =>
    intro x y x2 y2 hs hl h
    rw [perform_interpolation] at h
    have hpair := Option.some.inj h
    obtain ⟨e1, e2⟩ : x = x2 ∧ y = y2 :=
      ⟨congrArg Prod.fst hpair, congrArg Prod.snd hpair⟩
    subst e1
    subst e2
    exact ⟨hl, hs, fun a ha => ha, by simp, fun a ha => Or.inl ha,
      fun lo hi hb => hb⟩
  | cons t ts ih =>
    intro x y x2 y2 hs hl h
    rw [perform_interpolation] at h
    cases hstep : interpolateOne x y t with
    | none =>
      rw [hstep] at h
      exact absurd h (by simp)
    | some p1 =>
      obtain ⟨x1, y1⟩ := p1
      rw [hstep] at h
      dsimp only at h
      obtain ⟨hl1, hs1, hm1, ht1, hsub1, hbd1⟩ :=
        interpolateOne_some_props hs hl hstep
      obtain ⟨hl2, hs2, hm2, ht2, hsub2, hbd2⟩ := ih hs1 hl1 h
      refine ⟨hl2, hs2, fun a ha => hm2 a (hm1 a ha), ?_, ?_, ?_⟩
      · intro s hsm
        rcases List.mem_cons.mp hsm with rfl | hsm
        · exact hm2 s ht1
        · exact ht2 s hsm
      · intro a ha
        rcases hsub2 a ha with h1 | h1
        · rcases hsub1 a h1 with h2 | rfl
          · exact Or.inl h2
          · exact Or.inr (by simp)
        · exact Or.inr (by simp [h1])
      · intro lo hi hb v hv
        exact hbd2 lo hi (hbd1 lo hi hb) v hv

theorem bandAreas_cons_inv (fpr tpr : List ℚ) (b : ℚ) (bs : List ℚ) (low : ℕ)
    (as : List ℚ) (h : bandAreas fpr tpr (b :: bs) low = some as) :
    tpr.countP (fun v => decide (v ≤ b)) ≠ 0 ∧
    ∃ t0 srest as',
      (tpr.drop low).take (tpr.countP (fun v => decide (v ≤ b)) - 1 + 1 - low)
        = t0 :: srest ∧
      bandAreas fpr tpr bs (tpr.countP (fun v => decide (v ≤ b)) - 1)
        = some as' ∧
      as = auc
        (0 :: (fpr.drop low).take
          (tpr.countP (fun v => decide (v ≤ b)) - 1 + 1 - low) ++ [1])
        (((t0 :: srest).map (fun v => v - t0)).getD 0 0 ::
          (t0 :: srest).map (fun v => v - t0) ++
          [((t0 :: srest).map (fun v => v - t0)).getLastD 0]) :: as' := by
  rw [bandAreas] at h
  dsimp only at h
  by_cases hcnt : tpr.countP (fun v => decide (v ≤ b)) = 0
  · rw [if_pos hcnt] at h
    exact absurd h (by simp)
  · rw [if_neg hcnt] at h
    refine ⟨hcnt, ?_⟩
    cases hsl : (tpr.drop low).take
        (tpr.countP (fun v => decide (v ≤ b)) - 1 + 1 - low) with
    | nil =>
      rw [hsl] at h
      exact absurd h (by simp)
    | cons t0 srest =>
      rw [hsl] at h
      dsimp only at h
      cases hrec : bandAreas fpr tpr bs
          (tpr.countP (fun v => decide (v ≤ b)) - 1) with
      | none =>
        rw [hrec] at h
        exact absurd h (by simp)
      | some as' =>
        rw [hrec] at h
        dsimp only at h
        exact ⟨t0, srest, as', rfl, rfl, (Option.some.inj h).symm⟩

theorem bandAreas_bound (fpr tpr : List ℚ) (hsort : tpr.Sorted (· ≤ ·))
    (hfb : ∀ v ∈ fpr, 0 ≤ v ∧ v ≤ 1) :
    ∀ (bs : List ℚ) (low : ℕ) (prev : ℚ) (as : List ℚ),
    bandAreas fpr tpr bs low = some as →
    (∀ b' ∈ bs, b' ∈ tpr) →
    List.Chain (· ≤ ·) prev bs →
    low < tpr.length → prev ≤ tpr.getD low 0 →
    List.Forall₂ (fun (a : ℚ) (pb : ℚ × ℚ) => 0 ≤ a ∧ a ≤ pb.2 - pb.1) as
      ((prev :: bs).zip bs) := by
  intro bs
  induction bs with
  | nil =>
    intro low prev as h _ _ _ _
    have has : as = [] := by
      rw [bandAreas] at h
      exact (Option.some.inj h).symm
    subst has
    simp
  | cons b bs ih =>
    intro low prev as h hmem hchain hlow hinv
    rcases List.chain_cons.mp hchain with ⟨hpb, hchain2⟩
    have hbmem : b ∈ tpr := hmem b (List.mem_cons_self b bs)
    obtain ⟨hcnt0, t0, srest, as', hsl, hrec, has⟩ :=
      bandAreas_cons_inv fpr tpr b bs low as h
    have hcnt_le : tpr.countP (fun v => decide (v ≤ b)) ≤ tpr.length :=
      List.countP_le_length _
    have hcnt_lb : low + 1 ≤ tpr.countP (fun v => decide (v ≤ b)) := by
      have hlenslice := congrArg List.length hsl
      rw [List.length_take, List.length_drop, List.length_cons] at hlenslice
      omega
    obtain ⟨m, hm, hmb⟩ := List.getElem_of_mem hbmem
    have hm_cnt : m + 1 ≤ tpr.countP (fun v => decide (v ≤ b)) :=
      sorted_countP_ge hsort hm (by rw [getD_of_lt _ _ hm, hmb])
    have hb_at_high : tpr.getD (tpr.countP (fun v => decide (v ≤ b)) - 1) 0 = b := by
      have h1 : tpr.getD (tpr.countP (fun v => decide (v ≤ b)) - 1) 0 ≤ b :=
        sorted_countP_lt hsort (by omega) (by omega)
      have h2 : b ≤ tpr.getD (tpr.countP (fun v => decide (v ≤ b)) - 1) 0 := by
        have hhl : tpr.countP (fun v => decide (v ≤ b)) - 1 < tpr.length := by omega
        have h3 : tpr[m] ≤ tpr[tpr.countP (fun v => decide (v ≤ b)) - 1] :=
          sorted_getElem_le hsort (by omega) hhl (by omega)
        rw [hmb] at h3
        rw [getD_of_lt _ _ hhl]
        exact h3
      exact le_antisymm h1 h2
    have hslice : ∀ v ∈ (tpr.drop low).take
        (tpr.countP (fun v => decide (v ≤ b)) - 1 + 1 - low),
        tpr.getD low 0 ≤ v ∧ v ≤ b := by
      intro v hv
      obtain ⟨i, hi, rfl⟩ := List.getElem_of_mem hv
      have hilt : i < tpr.countP (fun v => decide (v ≤ b)) - 1 + 1 - low := by
        have h1 := List.length_take_le
          (tpr.countP (fun v => decide (v ≤ b)) - 1 + 1 - low) (tpr.drop low)
        omega
      have hi2 : low + i < tpr.length := by
        rw [List.length_take, List.length_drop] at hi
        omega
      rw [List.getElem_take, List.getElem_drop]
      constructor
      · rw [getD_of_lt _ _ hlow]
        exact sorted_getElem_le hsort (Nat.le_add_right _ _) hi2 hlow
      · have hhl : tpr.countP (fun v => decide (v ≤ b)) - 1 < tpr.length := by omega
        have h3 : tpr[low + i] ≤ tpr[tpr.countP (fun v => decide (v ≤ b)) - 1] :=
          sorted_getElem_le hsort (by omega) hhl (by omega)
        have h4 : tpr[tpr.countP (fun v => decide (v ≤ b)) - 1] = b :=
          (getD_of_lt _ _ hhl).symm.trans hb_at_high
        rw [h4] at h3
        exact h3
    have ht0 : t0 = tpr.getD low 0 := by
      have hlt0 : 0 < ((tpr.drop low).take
          (tpr.countP (fun v => decide (v ≤ b)) - 1 + 1 - low)).length := by
        rw [hsl]
        exact Nat.succ_pos _
      have h0 : ((tpr.drop low).take
          (tpr.countP (fun v => decide (v ≤ b)) - 1 + 1 - low)).getD 0 0 = t0 := by
        rw [hsl]
        rfl
      rw [← h0, getD_of_lt _ _ hlt0, List.getElem_take, List.getElem_drop]
      simp only [Nat.add_zero]
      rw [getD_of_lt _ _ hlow]
    have hrt : ∀ v ∈ (t0 :: srest).map (fun v => v - t0),
        0 ≤ v ∧ v ≤ b - prev := by
      intro v hv
      obtain ⟨u, hu, rfl⟩ := List.mem_map.mp hv
      rw [← hsl] at hu
      obtain ⟨hu1, hu2⟩ := hslice u hu
      rw [ht0]
      constructor
      · linarith
      · linarith
    have hex : ∀ v ∈ (0 : ℚ) :: (fpr.drop low).take
        (tpr.countP (fun v => decide (v ≤ b)) - 1 + 1 - low) ++ [1],
        0 ≤ v ∧ v ≤ 1 := by
      intro v hv
      rcases List.mem_cons.mp hv with rfl | hv2
      · norm_num
      rcases List.mem_append.mp hv2 with hv3 | hv4
      · exact hfb v (List.mem_of_mem_drop (List.mem_of_mem_take hv3))
      · rcases List.mem_singleton.mp hv4 with rfl
        norm_num
    have hmapne : ((t0 :: srest).map (fun v => v - t0)) ≠ [] := by simp
    have hey : ∀ v ∈ (((t0 :: srest).map (fun v => v - t0)).getD 0 0 ::
          (t0 :: srest).map (fun v => v - t0) ++
          [((t0 :: srest).map (fun v => v - t0)).getLastD 0]),
        0 ≤ v ∧ v ≤ b - prev := by
      intro v hv
      rcases List.mem_cons.mp hv with rfl | hv2
      · refine hrt _ ?_
        rw [List.map_cons, List.getD_cons_zero]
        exact List.mem_cons_self _ _
      rcases List.mem_append.mp hv2 with hv3 | hv4
      · exact hrt v hv3
      · rcases List.mem_singleton.mp hv4 with rfl
        exact hrt _ (getLastD_mem_of_ne_nil hmapne 0)
    obtain ⟨ha0, ha1⟩ := auc_bound (sub_nonneg.mpr hpb) hex hey
    have hfa' := ih (tpr.countP (fun v => decide (v ≤ b)) - 1) b as' hrec
      (fun b' hb' => hmem b' (List.mem_cons_of_mem b hb')) hchain2 (by omega)
      (le_of_eq hb_at_high.symm)
    subst has
    rw [List.zip_cons_cons]
    exact List.Forall₂.cons ⟨ha0, ha1⟩ hfa'

/-- C3: for every input with at least one positive label (1) and one negative
label (0), and every weight distribution whose entries are non-negative with a
positive sum, any score that `compute_Weighted_AUC` returns lies in the closed
interval [0, 1].  (The program may instead raise — see the C1 analysis — and
then returns no value; what it does return is always in range.) -/
theorem compute_Weighted_AUC_in_unit_interval (y_true y_score w : List ℚ)
    (hlen : y_true.length = y_score.length)
    (hpos : ∃ l ∈ y_true, l = 1) (hneg : ∃ l ∈ y_true, l = 0)
    (hw : ∀ v ∈ w, 0 ≤ v) (hwsum : 0 < w.sum) :
    ∀ r, compute_Weighted_AUC y_true y_score w = some r → 0 ≤ r ∧ r ≤ 1 := by
  intro r hr
  have hneg' : ∃ l ∈ y_true, l ≠ 1 := by
    obtain ⟨l, hl, hl0⟩ := hneg
    refine ⟨l, hl, ?_⟩
    rw [hl0]
    norm_num
  have hwne : w ≠ [] := by
    intro h
    rw [h] at hwsum
    simp at hwsum
  have hWpos : 1 ≤ w.length := List.length_pos.mpr hwne
  obtain ⟨hl_eq, hsortT, hFbd, hTbd, h1T⟩ := roc_curve_props hlen hpos hneg'
  have hbounds : linspace 0 1 (w.length + 1)
      = (List.range (w.length + 1)).map
        (fun (k : ℕ) => (k : ℚ) / (w.length : ℚ)) :=
    linspace_zero_one w.length hWpos
  unfold compute_Weighted_AUC at hr
  dsimp only at hr
  rw [hbounds] at hr
  cases hinterp : perform_interpolation (roc_curve y_true y_score).1
      (roc_curve y_true y_score).2
      ((((List.range (w.length + 1)).map
        (fun (k : ℕ) => (k : ℚ) / (w.length : ℚ))).drop 1).dropLast) with
  | none =>
    rw [hinterp] at hr
    exact absurd hr (by simp)
  | some fi =>
    obtain ⟨F2, T2⟩ := fi
    rw [hinterp] at hr
    dsimp only at hr
    cases hareas : bandAreas F2 T2
        (((List.range (w.length + 1)).map
          (fun (k : ℕ) => (k : ℚ) / (w.length : ℚ))).drop 1) 0 with
    | none =>
      rw [hareas] at hr
      exact absurd hr (by simp)
    | some as =>
      rw [hareas] at hr
      dsimp only at hr
      have hre : r = (List.zipWith (fun a w => a * w) as
          (w.map (fun v => v / npMean w))).sum := (Option.some.inj hr).symm
      obtain ⟨hlen2, hsort2, hmemT, hmemts, hsub2, hbd2⟩ :=
        perform_interpolation_some_props hsortT hl_eq hinterp
      have hF2bd : ∀ v ∈ F2, 0 ≤ v ∧ v ≤ 1 := hbd2 0 1 hFbd
      have hT2bd : ∀ v ∈ T2, 0 ≤ v ∧ v ≤ 1 := by
        intro v hv
        rcases hsub2 v hv with h1 | h1
        · exact hTbd v h1
        · obtain ⟨h2, h3⟩ := interiorD_val w.length hWpos v h1
          exact ⟨le_of_lt h2, le_of_lt h3⟩
      have h1T2 : (1 : ℚ) ∈ T2 := hmemT 1 h1T
      have hT2ne : 0 < T2.length := List.length_pos.mpr (List.ne_nil_of_mem h1T2)
      have hhead_nonneg : 0 ≤ T2.getD 0 0 := by
        rw [getD_of_lt _ _ hT2ne]
        exact (hT2bd _ (List.getElem_mem hT2ne)).1
      have hbmem : ∀ b' ∈ ((List.range (w.length + 1)).map
          (fun (k : ℕ) => (k : ℚ) / (w.length : ℚ))).drop 1, b' ∈ T2 := by
        intro b' hb'
        rcases uppersD_mem_split w.length hWpos b' hb' with h1 | h1
        · exact hmemts b' h1
        · rw [h1]
          exact h1T2
      have hfa := bandAreas_bound F2 T2 hsort2 hF2bd
        (((List.range (w.length + 1)).map
          (fun (k : ℕ) => (k : ℚ) / (w.length : ℚ))).drop 1) 0 0 as hareas
        hbmem (uppersD_chain w.length hWpos) hT2ne hhead_nonneg
      have hab : ∀ a ∈ as, 0 ≤ a ∧ a ≤ 1 / (w.length : ℚ) :=
        forall₂_bound hfa (uppersD_pairs w.length hWpos)
      have hmean : 0 < npMean w := by
        unfold npMean
        apply div_pos hwsum
        exact_mod_cast hWpos
      have hwn : ∀ v ∈ w.map (fun v => v / npMean w), 0 ≤ v := by
        intro v hv
        obtain ⟨u, hu, rfl⟩ := List.mem_map.mp hv
        exact div_nonneg (hw u hu) (le_of_lt hmean)
      have hwnsum : (w.map (fun v => v / npMean w)).sum = (w.length : ℚ) := by
        rw [sum_map_div]
        unfold npMean
        rw [div_div_eq_mul_div, mul_comm, mul_div_assoc,
          div_self (ne_of_gt hwsum), mul_one]
      obtain ⟨hs0, hs1⟩ := sum_zipWith_mul_bound (1 / (w.length : ℚ))
        (by positivity) as (w.map (fun v => v / npMean w)) hab hwn
      have hfin : (1 / (w.length : ℚ)) *
          (w.map (fun v => v / npMean w)).sum = 1 := by
        rw [hwnsum]
        have hWne : (w.length : ℚ) ≠ 0 := by
          exact_mod_cast (by omega : w.length ≠ 0)
        field_simp
      rw [hre]
      refine ⟨hs0, ?_⟩
      rw [hfin] at hs1
      exact hs1

/-- Witness for C3 at labels `[0, 1]`, scores `[0, 1]`, weights `[1]`: here
the program succeeds and returns the in-range score 0. -/
theorem compute_Weighted_AUC_in_unit_interval_witness :
    (0 : ℚ) < ([1] : List ℚ).sum ∧ ((0 : ℚ) ≤ 0 ∧ (0 : ℚ) ≤ 1) :=
  ⟨by decide,
    compute_Weighted_AUC_in_unit_interval [0, 1] [0, 1] [1] (by decide)
      ⟨1, by decide, rfl⟩ ⟨0, by decide, rfl⟩ (by decide) (by decide) 0
      (by decide)⟩
